import Mathlib

/-!
Verification of the `TreeNode` phylogenetic-tree core (`bipy/core/tree.py`).

Two complementary shallow embeddings of the Python class are developed:

* an inductive value model `PTree` (name, branch length, ordered children),
  used for the pure, non-mutating algorithms: the traversal generators,
  `_accumulate_to_ancestor` (read off the upward parent chain it walks),
  the Newick name-escaping step of `to_newick`, the node-cache construction
  loop of `create_node_cache`, and the `tip_tip_distances` postorder sweep;

* an arena model (`Arena := Nat → NodeRec`), mirroring the Python object
  graph with explicit parent/child id links and per-node mutable state
  (`_node_cache`, `MaxDistTips`, the transient `black` LCA marks), used for
  the mutating operations (`append`, `extend`, `pop`, `remove`, `prune`),
  `find`, `lowest_common_ancestor`, and the diameter memoization.

Node names are Python strings; only equality on them is ever used, so they
are modelled as `List Char`.  Branch lengths (Python floats) are modelled
as rationals.
-/

set_option autoImplicit false
set_option maxRecDepth 4000

namespace BipyTree

/-- A tree node: optional name, optional branch length, ordered children.
Mirrors `TreeNode.__init__` (`Name`, `Length`, `Children`); the `Parent`
back-pointer of a consistent tree is implicit in the inductive structure. -/
inductive PTree where
  | node : Option (List Char) → Option ℚ → List PTree → PTree

/-- `Name` attribute. -/
def PTree.name : PTree → Option (List Char)
  | .node n _ _ => n

/-- `Length` attribute. -/
def PTree.length : PTree → Option ℚ
  | .node _ l _ => l

/-- `Children` attribute. -/
def PTree.children : PTree → List PTree
  | .node _ _ cs => cs

mutual

/-- Number of nodes of a tree. -/
def PTree.size : PTree → Nat
  | .node _ _ cs => 1 + PTree.sizeL cs

/-- Number of nodes of a forest. -/
def PTree.sizeL : List PTree → Nat
  | [] => 0
  | t :: ts => PTree.size t + PTree.sizeL ts

end

theorem PTree.size_pos : ∀ t : PTree, 0 < t.size
  | .node _ _ _ => Nat.succ_le_of_lt (Nat.lt_of_lt_of_le Nat.zero_lt_one (Nat.le_add_right _ _))

theorem PTree.sizeL_eq (ts : List PTree) : PTree.sizeL ts = (ts.map PTree.size).sum := by
  induction ts with
  | nil => rfl
  | cons t ts ih => simp [PTree.sizeL, ih]

theorem PTree.size_lt_of_mem {c : PTree} {cs : List PTree} (h : c ∈ cs) {n : Option (List Char)}
    {l : Option ℚ} : c.size < (PTree.node n l cs).size := by
  have hle : c.size ≤ PTree.sizeL cs := by
    induction cs with
    | nil => cases h
    | cons t ts ih =>
      rcases List.mem_cons.mp h with h1 | h2
      · subst h1; exact Nat.le_add_right _ _
      · calc c.size ≤ PTree.sizeL ts := ih h2
          _ ≤ t.size + PTree.sizeL ts := Nat.le_add_left _ _
          _ = PTree.sizeL (t :: ts) := rfl
  have : (PTree.node n l cs).size = 1 + PTree.sizeL cs := rfl
  omega

/-- Subtree-wise induction: to prove `P` for every tree it suffices to prove
it for a node assuming it for all children. -/
theorem PTree.inductionOn (P : PTree → Prop)
    (h : ∀ n l cs, (∀ c ∈ cs, P c) → P (PTree.node n l cs)) : ∀ t, P t := by
  have key : ∀ m, ∀ t : PTree, t.size ≤ m → P t := by
    intro m
    induction m with
    | zero => intro t ht; exact absurd ht (by have := PTree.size_pos t; omega)
    | succ m ih =>
      intro t ht
      cases t with
      | node nm l cs =>
        refine h nm l cs (fun c hc => ?_)
        have := PTree.size_lt_of_mem hc (n := nm) (l := l)
        exact ih c (by omega)
  exact fun t => key t.size t le_rfl

mutual

/-- The occurrence list of all nodes reachable from a tree (the node itself
and, recursively, everything below each child, in child order).  This is the
reference enumeration the traversal claims are measured against. -/
def nodesList : PTree → List PTree
  | .node n l cs => PTree.node n l cs :: nodesListL cs

/-- Occurrence list of all nodes of a forest. -/
def nodesListL : List PTree → List PTree
  | [] => []
  | t :: ts => nodesList t ++ nodesListL ts

end

mutual

/-- Naive recursive postorder: for each node, the postorder sequences of its
children in child order, followed by the node itself. -/
def postR : PTree → List PTree
  | .node n l cs => postRL cs ++ [PTree.node n l cs]

/-- Recursive postorder of a forest. -/
def postRL : List PTree → List PTree
  | [] => []
  | t :: ts => postR t ++ postRL ts

end

/-! ## Error taxonomy

`bipy/core/exception.py` is outside the given slice; the four error kinds it
provides (`DuplicateNodeError`, `MissingNodeError`, `NoParentError`,
`NoLengthError`) are opaque exception classes, modelled as an enumeration.
`attrMissing` stands for Python's built-in `AttributeError` (reading an
attribute, such as the transient `black` mark, that is not set). -/
inductive TreeErr where
  | duplicateNode
  | missingNode
  | noParent
  | noLength
  | attrMissing
deriving DecidableEq, Repr

/-! ## `_accumulate_to_ancestor` (tree.py lines 620-634)

The Python loop reads only the upward parent chain of `self`: for each
visited node its identity (`curr is ancestor`), whether it is the root
(`curr.is_root()`, i.e. `Parent is None`), and its `Length`.  It is embedded
over exactly that data: the chain `[self, parent, grandparent, ..., root]`
of (node id, `Length`) pairs; the last chain element is the root. -/

/-- Loop of `_accumulate_to_ancestor`, with the running `accum`.
`while curr is not ancestor: if curr.is_root(): raise NoParentError;
if curr.Length is None: raise NoLengthError; accum += curr.Length;
curr = curr.Parent`. The `[]` case is unreachable for a chain that starts at
a real node. -/
def accumulateLoop : List (Nat × Option ℚ) → Nat → ℚ → Except TreeErr ℚ
  | [], _, _ => .error .noParent
  | (i, l) :: rest, anc, accum =>
    if i = anc then .ok accum
    else if rest.isEmpty then .error .noParent
    else
      match l with
      | none => .error .noLength
      | some x => accumulateLoop rest anc (accum + x)

/-- `_accumulate_to_ancestor(ancestor)`: `accum = 0.0` then the walk. -/
def _accumulate_to_ancestor (chain : List (Nat × Option ℚ)) (anc : Nat) : Except TreeErr ℚ :=
  accumulateLoop chain anc 0

theorem accumulateLoop_shift (chain : List (Nat × Option ℚ)) (anc : Nat) (a b : ℚ) :
    accumulateLoop chain anc (a + b) = (accumulateLoop chain anc b).map (a + ·) := by
  induction chain generalizing b with
  | nil => rfl
  | cons p rest ih =>
    obtain ⟨i, l⟩ := p
    by_cases hi : i = anc
    · simp [accumulateLoop, hi, Except.map]
    · by_cases hr : rest.isEmpty
      · simp [accumulateLoop, hi, hr, Except.map]
      · cases l with
        | none => simp [accumulateLoop, hi, hr, Except.map]
        | some x => simpa [accumulateLoop, hi, hr, add_assoc] using ih (b + x)

/-- Success case: if `anc` occurs on the chain after a prefix `pre` of nodes
all different from `anc` and all carrying a branch length, the walk returns
the sum of the prefix lengths. -/
theorem accumulateLoop_ok (pre : List (Nat × Option ℚ)) (anc : Nat) (l : Option ℚ)
    (post : List (Nat × Option ℚ)) (hanc : anc ∉ pre.map Prod.fst)
    (hlen : ∀ p ∈ pre, p.2 ≠ none) :
    _accumulate_to_ancestor (pre ++ (anc, l) :: post) anc =
      .ok ((pre.map (fun p => p.2.getD 0)).sum) := by
  unfold _accumulate_to_ancestor
  induction pre with
  | nil => simp [accumulateLoop]
  | cons q rest ih =>
    obtain ⟨i, x⟩ := q
    have hi : i ≠ anc := by
      intro h; exact hanc (by simp [h])
    have hx : x ≠ none := hlen (i, x) (by simp)
    cases x with
    | none => exact absurd rfl hx
    | some v =>
      have hrest : ((rest ++ (anc, l) :: post).isEmpty) = false := by
        cases rest <;> simp
      have hanc' : anc ∉ List.map Prod.fst rest := fun hm => hanc (List.mem_cons_of_mem _ hm)
      have ihr := ih hanc' (fun p hp => hlen p (List.mem_cons_of_mem _ hp))
      have step : accumulateLoop ((i, some v) :: (rest ++ (anc, l) :: post)) anc 0 =
          accumulateLoop (rest ++ (anc, l) :: post) anc (0 + v) := by
        simp [accumulateLoop, hi, hrest]
      rw [List.cons_append, step, show (0 : ℚ) + v = v + 0 by ring,
        accumulateLoop_shift, ihr]
      simp [Except.map, add_comm]

/-- No-length case: if the first node with an absent `Length` comes before
`anc` and before the root, the walk fails with the no-length error. -/
theorem accumulateLoop_noLength (pre : List (Nat × Option ℚ)) (q : Nat)
    (rest : List (Nat × Option ℚ)) (anc : Nat) (hanc : anc ∉ pre.map Prod.fst)
    (hlen : ∀ p ∈ pre, p.2 ≠ none) (hq : q ≠ anc) (hrest : rest ≠ []) :
    _accumulate_to_ancestor (pre ++ (q, none) :: rest) anc = .error .noLength := by
  unfold _accumulate_to_ancestor
  induction pre with
  | nil =>
    have : ((q, (none : Option ℚ)) :: rest) = [(q, none)] ++ rest := rfl
    simp [accumulateLoop, hq, hrest]
  | cons p pre' ih =>
    obtain ⟨i, x⟩ := p
    have hi : i ≠ anc := fun h => hanc (by simp [h])
    have hx : x ≠ none := hlen (i, x) (by simp)
    cases x with
    | none => exact absurd rfl hx
    | some v =>
      have hne : ((pre' ++ (q, none) :: rest).isEmpty) = false := by
        cases pre' <;> simp
      have hanc' : anc ∉ List.map Prod.fst pre' := fun hm => hanc (List.mem_cons_of_mem _ hm)
      have ihr := ih hanc' (fun p hp => hlen p (List.mem_cons_of_mem _ hp))
      have step : accumulateLoop ((i, some v) :: (pre' ++ (q, none) :: rest)) anc 0 =
          accumulateLoop (pre' ++ (q, none) :: rest) anc (0 + v) := by
        simp [accumulateLoop, hi, hne]
      rw [List.cons_append, step, show (0 : ℚ) + v = v + 0 by ring,
        accumulateLoop_shift, ihr]
      rfl

/-- No-parent case: if `anc` is nowhere on the chain and every non-root node
has a length, the walk reaches the root and fails with the no-parent error. -/
theorem accumulateLoop_noParent (chain : List (Nat × Option ℚ)) (anc : Nat)
    (hne : chain ≠ []) (hanc : anc ∉ chain.map Prod.fst)
    (hlen : ∀ p ∈ chain.dropLast, p.2 ≠ none) :
    _accumulate_to_ancestor chain anc = .error .noParent := by
  unfold _accumulate_to_ancestor
  induction chain with
  | nil => exact absurd rfl hne
  | cons p rest ih =>
    obtain ⟨i, x⟩ := p
    have hi : i ≠ anc := fun h => hanc (by simp [h])
    cases hr : rest with
    | nil => simp [accumulateLoop, hi]
    | cons r rest' =>
      subst hr
      have hx : x ≠ none := hlen (i, x) (by simp [List.dropLast])
      cases x with
      | none => exact absurd rfl hx
      | some v =>
        have hanc' : anc ∉ List.map Prod.fst (r :: rest') :=
          fun hm => hanc (List.mem_cons_of_mem _ hm)
        have hlen' : ∀ p ∈ (r :: rest').dropLast, p.2 ≠ none := by
          intro p hp
          exact hlen p (by simpa [List.dropLast] using List.mem_cons_of_mem _ hp)
        have ihr := ih (by simp) hanc' hlen'
        have step : accumulateLoop ((i, some v) :: r :: rest') anc 0 =
            accumulateLoop (r :: rest') anc (0 + v) := by
          simp [accumulateLoop, hi]
        rw [step, show (0 : ℚ) + v = v + 0 by ring, accumulateLoop_shift, ihr]
        rfl

/-- C7: `_accumulate_to_ancestor(ancestor)` returns the sum of the branch
lengths on the path walking from the node up to (not including) `ancestor`;
it raises the no-length error if a traversed edge has an absent branch
length, and the no-parent error if the walk reaches the root without
encountering `ancestor`.  The walk is embedded over the upward parent chain
`[self, parent, ..., root]` of (node identity, `Length`) pairs; `ancestor`
sits on that chain exactly when it is on the node's path to the root. -/
theorem claim7_thm (anc : Nat) :
    (∀ (pre : List (Nat × Option ℚ)) (l : Option ℚ) (post : List (Nat × Option ℚ)),
      anc ∉ pre.map Prod.fst → (∀ p ∈ pre, p.2 ≠ none) →
      _accumulate_to_ancestor (pre ++ (anc, l) :: post) anc =
        .ok ((pre.map (fun p => p.2.getD 0)).sum)) ∧
    (∀ (pre : List (Nat × Option ℚ)) (q : Nat) (rest : List (Nat × Option ℚ)),
      anc ∉ pre.map Prod.fst → (∀ p ∈ pre, p.2 ≠ none) → q ≠ anc → rest ≠ [] →
      _accumulate_to_ancestor (pre ++ (q, none) :: rest) anc = .error .noLength) ∧
    (∀ chain : List (Nat × Option ℚ),
      chain ≠ [] → anc ∉ chain.map Prod.fst → (∀ p ∈ chain.dropLast, p.2 ≠ none) →
      _accumulate_to_ancestor chain anc = .error .noParent) :=
  ⟨fun pre l post h1 h2 => accumulateLoop_ok pre anc l post h1 h2,
   fun pre q rest h1 h2 h3 h4 => accumulateLoop_noLength pre q rest anc h1 h2 h3 h4,
   fun chain h1 h2 h3 => accumulateLoop_noParent chain anc h1 h2 h3⟩

/-- Witness for C7 at concrete chains: a successful accumulation of 5 over
two traversed edges, a missing-length failure, and an ancestor-off-path
failure. -/
theorem claim7_witness :
    _accumulate_to_ancestor [(5, some 2), (7, some 3), (9, some 1), (1, none)] 9 = .ok 5 ∧
    _accumulate_to_ancestor [(5, some 2), (7, none), (9, some 1), (1, none)] 9 =
      .error .noLength ∧
    _accumulate_to_ancestor [(5, some 2), (7, some 3), (1, some 4)] 9 =
      .error .noParent := by
  refine ⟨?_, ?_, ?_⟩
  · have h5 : ((2 : ℚ) + 3) = 5 := by norm_num
    have := (claim7_thm 9).1 [(5, some 2), (7, some 3)] (some 1) [(1, none)]
      (by decide) (by decide)
    simpa [h5] using this
  · exact (claim7_thm 9).2.1 [(5, some 2)] 7 [(9, some 1), (1, none)]
      (by decide) (by decide) (by decide) (by decide)
  · exact (claim7_thm 9).2.2 [(5, some 2), (7, some 3), (1, some 4)]
      (by decide) (by decide) (by decide)

/-! ## Newick name escaping in `to_newick` (tree.py lines 534-544)

With `escape_name` requested, each non-`None` name is processed by:
`if not (name.startswith("'") and name.endswith("'")):` then
`if re.search("[]['\"(),:;_]", name): name = "'%s'" % name.replace("'", "''")`
`else: name = name.replace(' ', '_')`.  Names are modelled as `List Char`. -/

/-- The single-quote character. -/
def sq : Char := Char.ofNat 39

/-- The ten characters of the regex character class `[]['"(),:;_]`. -/
def newickSpecial : List Char := [']', '[', sq, Char.ofNat 34, '(', ')', ',', ':', ';', '_']

/-- `name.replace("'", "''")`: double every single quote. -/
def doubleQuotes : List Char → List Char
  | [] => []
  | c :: rest => if c = sq then sq :: sq :: doubleQuotes rest else c :: doubleQuotes rest

/-- `name.replace(' ', '_')`: rewrite every space to an underscore. -/
def spacesToUnderscores : List Char → List Char
  | [] => []
  | c :: rest => (if c = ' ' then '_' else c) :: spacesToUnderscores rest

/-- `name.startswith("'")`. -/
def startsWithQuote : List Char → Bool
  | [] => false
  | c :: _ => c = sq

/-- `name.endswith("'")` (false on the empty string, as in Python for a
non-empty suffix). -/
def endsWithQuote (s : List Char) : Bool := startsWithQuote s.reverse

/-- `re.search("[]['\"(),:;_]", name)` is truthy. -/
def hasSpecial (s : List Char) : Bool := s.any (fun c => c ∈ newickSpecial)

/-- The name-escaping step of `to_newick` for a present name with
`escape_name=True` (tree.py lines 537-543). -/
def escape_name (name : List Char) : List Char :=
  if startsWithQuote name && endsWithQuote name then name
  else if hasSpecial name then (sq :: doubleQuotes name) ++ [sq]
  else spacesToUnderscores name

/-- Modelled from the spec: "Each node's name, if present, is escaped by
wrapping in single quotes (doubling any embedded single quote) whenever it
contains any of the characters `[ ] ' " ( ) , : ; _`, else spaces are
rewritten to underscores."  (No exemption for already-quoted names.) -/
def escape_name_spec (name : List Char) : List Char :=
  if hasSpecial name then (sq :: doubleQuotes name) ++ [sq]
  else spacesToUnderscores name

/-- On the one-character name `'` (which both starts and ends with a single
quote), the code emits the name unchanged, whereas the claim requires it to
be wrapped in single quotes with the embedded quote doubled (`''''`): the
claim as stated fails. -/
theorem claim8_cex :
    escape_name [sq] = [sq] ∧ escape_name_spec [sq] = [sq, sq, sq, sq] ∧
    escape_name [sq] ≠ escape_name_spec [sq] := by
  refine ⟨by decide, by decide, by decide⟩

/-- A name with no special character cannot both start and end with a quote
(the quote is itself special), except vacuously; record the useful half. -/
theorem no_special_no_quote_edge (name : List Char) (h : hasSpecial name = false) :
    (startsWithQuote name && endsWithQuote name) = false := by
  cases name with
  | nil => rfl
  | cons c rest =>
    have hc : ¬(c ∈ newickSpecial) := by
      intro hmem
      have : hasSpecial (c :: rest) = true := by
        simp [hasSpecial, List.any_cons]
        exact Or.inl hmem
      rw [this] at h; cases h
    have : (c = sq) = False := by
      by_cases hcq : c = sq
      · exact absurd (by simp [newickSpecial, hcq]) hc
      · simp [hcq]
    simp [startsWithQuote, this]

/-- C8 (amended): with `escape_name` requested, a node name that contains a
character of `[ ] ' " ( ) , : ; _` *and does not both start and end with a
single quote* is emitted wrapped in single quotes with every embedded single
quote doubled; a name that both starts and ends with a single quote is
emitted unchanged; and a name containing none of those characters is emitted
with each space rewritten to an underscore. -/
theorem claim8_thm (name : List Char) :
    ((startsWithQuote name && endsWithQuote name) = false → hasSpecial name = true →
      escape_name name = (sq :: doubleQuotes name) ++ [sq]) ∧
    ((startsWithQuote name && endsWithQuote name) = true → escape_name name = name) ∧
    (hasSpecial name = false → escape_name name = spacesToUnderscores name) := by
  refine ⟨fun hq hs => ?_, fun hq => ?_, fun hs => ?_⟩
  · simp [escape_name, hq, hs]
  · simp [escape_name, hq]
  · simp [escape_name, no_special_no_quote_edge name hs, hs]

/-- Witness for C8 at concrete names: `a'b` (special, not pre-quoted) is
wrapped with its quote doubled; `'x'` (pre-quoted) is left unchanged; and
`a b` (no special character) has its space rewritten. -/
theorem claim8_witness :
    escape_name ['a', sq, 'b'] = [sq, 'a', sq, sq, 'b', sq] ∧
    escape_name [sq, 'x', sq] = [sq, 'x', sq] ∧
    escape_name ['a', ' ', 'b'] = ['a', '_', 'b'] := by
  refine ⟨?_, ?_, ?_⟩
  · rw [(claim8_thm ['a', sq, 'b']).1 (by decide) (by decide)]; decide
  · exact (claim8_thm [sq, 'x', sq]).2.1 (by decide)
  · rw [(claim8_thm ['a', ' ', 'b']).2.2 (by decide)]; decide

/-! ## `create_node_cache` (tree.py lines 378-395)

`create_node_cache` is a no-op when `self._node_cache` is non-empty;
otherwise it walks `self.traverse()` (preorder, `include_self=True`,
established below to enumerate exactly `nodesList`), skips unnamed nodes,
raises `DuplicateNodeError` on a name already in the cache, and otherwise
inserts `name -> node`.  The dict is modelled as an association list in
insertion order; crucially, when the error is raised the insertions made so
far stay in `self._node_cache` (the Python loop mutates the attribute in
place and does not clear it on failure). -/

/-- The insertion loop of `create_node_cache` over the preorder node list,
threading the cache being built; returns the error, if any, together with
the cache contents left behind. -/
def cacheLoop : List PTree → List (List Char × PTree) →
    Option TreeErr × List (List Char × PTree)
  | [], cache => (none, cache)
  | t :: rest, cache =>
    match t.name with
    | none => cacheLoop rest cache
    | some n =>
      if (cache.lookup n).isSome then (some .duplicateNode, cache)
      else cacheLoop rest (cache ++ [(n, t)])

/-- `create_node_cache()`: no-op on a non-empty cache, otherwise the
insertion loop over a preorder traversal starting from the empty cache. -/
def create_node_cache (t : PTree) (cache : List (List Char × PTree)) :
    Option TreeErr × List (List Char × PTree) :=
  if cache.isEmpty then cacheLoop (nodesList t) [] else (none, cache)

theorem cacheLoop_error_nonempty (ns : List PTree) (cache : List (List Char × PTree))
    (h : (cacheLoop ns cache).1.isSome) : (cacheLoop ns cache).2 ≠ [] := by
  induction ns generalizing cache with
  | nil => simp [cacheLoop] at h
  | cons t rest ih =>
    cases hn : t.name with
    | none =>
      rw [show cacheLoop (t :: rest) cache = cacheLoop rest cache by simp [cacheLoop, hn]] at h ⊢
      exact ih cache h
    | some n =>
      by_cases hl : (cache.lookup n).isSome
      · rw [show cacheLoop (t :: rest) cache = (some .duplicateNode, cache) by
          simp [cacheLoop, hn, hl]] at h ⊢
        intro hc
        subst hc
        simp [List.lookup] at hl
      · rw [show cacheLoop (t :: rest) cache = cacheLoop rest (cache ++ [(n, t)]) by
          simp [cacheLoop, hn, hl]] at h ⊢
        exact ih (cache ++ [(n, t)]) h

/-- The tree `(a)a;` — a root named `a` with one child also named `a`. -/
def tDupName : PTree := PTree.node (some ['a']) none [PTree.node (some ['a']) none []]

/-- On a tree with two nodes named `a`, `create_node_cache` starting from an
empty cache raises the duplicate-name error, but the cache is *not* left
empty: it retains the entry inserted before the duplicate was discovered,
so the claim's "cache left empty" fails (and the subsequent
`create_node_cache()` is a no-op on that partial cache, not a rebuild from
empty). -/
theorem claim1_cex :
    (create_node_cache tDupName []).1 = some .duplicateNode ∧
    (create_node_cache tDupName []).2 =
      [(['a'], tDupName)] ∧
    (create_node_cache tDupName []).2 ≠ [] ∧
    create_node_cache tDupName (create_node_cache tDupName []).2 =
      (none, [(['a'], tDupName)]) := by
  refine ⟨rfl, rfl, ?_, rfl⟩
  intro h
  rw [show (create_node_cache tDupName []).2 = [(['a'], tDupName)] from rfl] at h
  cases h

/-- C1 (amended): if `create_node_cache()` discovers two nodes in the
subtree sharing the same non-absent name, it raises the duplicate-name
error, and on that error the node cache is left holding exactly the entries
inserted before the duplicate — in particular non-empty — so a subsequent
`create_node_cache()` (and hence `find`) treats the partial cache as
already built and does not rebuild it. -/
theorem claim1_thm (t : PTree) (h : (create_node_cache t []).1.isSome) :
    (create_node_cache t []).2 ≠ [] ∧
    create_node_cache t (create_node_cache t []).2 =
      (none, (create_node_cache t []).2) := by
  have hne : (create_node_cache t []).2 ≠ [] := by
    have hrw : create_node_cache t [] = cacheLoop (nodesList t) [] := by
      simp [create_node_cache]
    rw [hrw] at h ⊢
    exact cacheLoop_error_nonempty (nodesList t) [] h
  refine ⟨hne, ?_⟩
  unfold create_node_cache
  rw [if_neg (by simpa [List.isEmpty_iff] using hne)]

/-- Witness for C1: the duplicate-name tree `tDupName` satisfies the
hypothesis (its cache construction errors) and the conclusion. -/
theorem claim1_witness :
    ((create_node_cache tDupName []).1.isSome) ∧
    ((create_node_cache tDupName []).2 ≠ [] ∧
      create_node_cache tDupName (create_node_cache tDupName []).2 =
        (none, (create_node_cache tDupName []).2)) :=
  ⟨by rw [show (create_node_cache tDupName []).1 = some .duplicateNode from rfl]; rfl,
   claim1_thm tDupName
     (by rw [show (create_node_cache tDupName []).1 = some .duplicateNode from rfl]; rfl)⟩

/-! ## Traversal engine (tree.py lines 233-343)

The three generators are iterative.  In the Python object graph the checks
`curr is not self` compare object identities; in the value model the
starting node is distinguished by tagging stack entries with an
`is-the-initial-node` flag (children are always pushed untagged, and in an
acyclic object graph only the initial object can ever be `self`).  The
generators are embedded as fuel-indexed functions returning `none` only on
fuel exhaustion; adequacy lemmas show the chosen fuel always suffices. -/

/-- `preorder` (lines 233-241): explicit stack, pop, yield unless the
untagged-`self` is excluded, push children so they pop in original order
(`stack.extend(curr.Children[::-1])` on a pop-from-the-end Python list is
pushing the children in order on this pop-from-the-head stack). -/
def preAux (inc : Bool) : Nat → List (PTree × Bool) → Option (List PTree)
  | 0, _ => none
  | _ + 1, [] => some []
  | fuel + 1, (t, isSelf) :: stk =>
    (preAux inc fuel (t.children.map (fun c => (c, false)) ++ stk)).map
      (fun l => (if inc || !isSelf then [t] else []) ++ l)

/-- `preorder(include_self)` on a tree. -/
def preorder (t : PTree) (include_self : Bool) : Option (List PTree) :=
  preAux include_self (t.size + 1) [(t, true)]

/-- `levelorder` (lines 335-343): FIFO queue (`queue.pop(0)`,
`queue.extend(curr.Children)`). -/
def levelAux (inc : Bool) : Nat → List (PTree × Bool) → Option (List PTree)
  | 0, _ => none
  | _ + 1, [] => some []
  | fuel + 1, (t, isSelf) :: queue =>
    (levelAux inc fuel (queue ++ t.children.map (fun c => (c, false)))).map
      (fun l => (if inc || !isSelf then [t] else []) ++ l)

/-- `levelorder(include_self)` on a tree. -/
def levelorder (t : PTree) (include_self : Bool) : Option (List PTree) :=
  levelAux include_self (t.size + 1) [(t, true)]

/-- Total number of tree nodes held in a tagged stack/queue. -/
def stkSize : List (PTree × Bool) → Nat
  | [] => 0
  | p :: rest => p.1.size + stkSize rest

/-- What a traversal eventually emits for one stack entry: everything below
it, including the entry itself unless it is the excluded starting node. -/
def outFor (inc : Bool) (p : PTree × Bool) : List PTree :=
  if inc || !p.2 then nodesList p.1 else nodesListL p.1.children

/-- Emissions of a whole tagged stack, in stack order. -/
def outStk (inc : Bool) : List (PTree × Bool) → List PTree
  | [] => []
  | p :: rest => outFor inc p ++ outStk inc rest

theorem stkSize_append (a b : List (PTree × Bool)) :
    stkSize (a ++ b) = stkSize a + stkSize b := by
  induction a with
  | nil => simp [stkSize]
  | cons p a ih => simp [stkSize, ih, Nat.add_assoc]

theorem stkSize_children (cs : List PTree) :
    stkSize (cs.map (fun c => (c, false))) = PTree.sizeL cs := by
  induction cs with
  | nil => rfl
  | cons c cs ih => simp [stkSize, PTree.sizeL, ih]

theorem outStk_append (inc : Bool) (a b : List (PTree × Bool)) :
    outStk inc (a ++ b) = outStk inc a ++ outStk inc b := by
  induction a with
  | nil => rfl
  | cons p a ih => simp [outStk, ih]

theorem outStk_children (inc : Bool) (cs : List PTree) :
    outStk inc (cs.map (fun c => (c, false))) = nodesListL cs := by
  induction cs with
  | nil => rfl
  | cons c cs ih => simp [outStk, outFor, nodesListL, ih]

theorem outFor_eq (inc : Bool) (t : PTree) (b : Bool) :
    (if inc || !b then [t] else []) ++ nodesListL t.children = outFor inc (t, b) := by
  cases t with
  | node n l cs =>
    by_cases h : (inc || !b) = true
    · simp [outFor, h, nodesList, PTree.children]
    · simp [outFor, h, PTree.children]

theorem preAux_spec (inc : Bool) :
    ∀ fuel stk, stkSize stk < fuel → preAux inc fuel stk = some (outStk inc stk) := by
  intro fuel
  induction fuel with
  | zero => intro stk h; omega
  | succ fuel ih =>
    intro stk h
    cases stk with
    | nil => rfl
    | cons p rest =>
      obtain ⟨t, b⟩ := p
      have hsz : stkSize (t.children.map (fun c => (c, false)) ++ rest) < fuel := by
        rw [stkSize_append, stkSize_children]
        have ht : t.size = 1 + PTree.sizeL t.children := by
          cases t; rfl
        have : stkSize ((t, b) :: rest) = t.size + stkSize rest := rfl
        omega
      rw [show preAux inc (fuel + 1) ((t, b) :: rest) =
          (preAux inc fuel (t.children.map (fun c => (c, false)) ++ rest)).map
            (fun l => (if inc || !b then [t] else []) ++ l) from rfl,
        ih _ hsz, outStk_append, outStk_children]
      show some _ = some _
      rw [show outStk inc ((t, b) :: rest) = outFor inc (t, b) ++ outStk inc rest from rfl,
        ← outFor_eq inc t b]
      simp

theorem preorder_true (t : PTree) : preorder t true = some (nodesList t) := by
  have h := preAux_spec true (t.size + 1) [(t, true)] (by simp [stkSize])
  rw [preorder, h]
  simp [outStk, outFor]

theorem preorder_false (t : PTree) : preorder t false = some (nodesListL t.children) := by
  have h := preAux_spec false (t.size + 1) [(t, true)] (by simp [stkSize])
  rw [preorder, h]
  simp [outStk, outFor]

theorem levelAux_spec (inc : Bool) :
    ∀ fuel q, stkSize q < fuel →
      ∃ l, levelAux inc fuel q = some l ∧
        (l : Multiset PTree) = (outStk inc q : Multiset PTree) := by
  intro fuel
  induction fuel with
  | zero => intro q h; omega
  | succ fuel ih =>
    intro q h
    cases q with
    | nil => exact ⟨[], rfl, rfl⟩
    | cons p rest =>
      obtain ⟨t, b⟩ := p
      have hsz : stkSize (rest ++ t.children.map (fun c => (c, false))) < fuel := by
        rw [stkSize_append, stkSize_children]
        have ht : t.size = 1 + PTree.sizeL t.children := by
          cases t; rfl
        have : stkSize ((t, b) :: rest) = t.size + stkSize rest := rfl
        omega
      obtain ⟨l, hl, hml⟩ := ih _ hsz
      refine ⟨(if inc || !b then [t] else []) ++ l, ?_, ?_⟩
      · rw [show levelAux inc (fuel + 1) ((t, b) :: rest) =
            (levelAux inc fuel (rest ++ t.children.map (fun c => (c, false)))).map
              (fun l => (if inc || !b then [t] else []) ++ l) from rfl, hl]
        rfl
      · rw [outStk_append, outStk_children, Multiset.coe_eq_coe] at hml
        rw [show outStk inc ((t, b) :: rest) = outFor inc (t, b) ++ outStk inc rest from rfl,
          ← outFor_eq inc t b, Multiset.coe_eq_coe, List.append_assoc]
        exact (hml.trans List.perm_append_comm).append_left _

/-! ## Iterative postorder (tree.py lines 243-293)

State of the Python loop: `curr` (current node), `child_index_stack`
(per-frame child-index counters, top = counter of `curr`), and the parent
chain `curr.Parent, curr.Parent.Parent, ...` used to climb back up.  During
the traversal of a consistent (acyclic, parent/children-matched) tree, the
parent chain of `curr` above the starting node is exactly the list of nodes
the loop descended through, so the embedding carries it explicitly (`anc`);
`curr is self` holds exactly when `anc` is empty.  One fuel unit is one
iteration of `while 1`. -/

/-- The loop of `postorder`: `curr` with ancestor chain `anc`,
`child_index_stack` split into its top `i` and the rest.  Branches, in
source order: descend into a child that has children / yield a childless
child and advance / yield `curr` (unless it is the excluded self) and
break-or-climb. -/
def postAux (inc : Bool) : Nat → PTree → List PTree → List Nat → Option (List PTree)
  | 0, _, _, _ => none
  | fuel + 1, curr, anc, stk =>
    match stk with
    | [] => none
    | i :: rest =>
      if h : i < curr.children.length then
        if (curr.children[i]).children.isEmpty then
          (postAux inc fuel curr anc ((i + 1) :: rest)).map
            (fun l => curr.children[i] :: l)
        else
          postAux inc fuel (curr.children[i]) (curr :: anc) (0 :: i :: rest)
      else
        match anc, rest with
        | [], _ => some (if inc then [curr] else [])
        | p :: anc2, j :: rest2 =>
          (postAux inc fuel p anc2 ((j + 1) :: rest2)).map (fun l => curr :: l)
        | _ :: _, [] => none

mutual

/-- Number of loop iterations `postAux` spends from entering a node (its
counter freshly pushed at 0) up to and including the iteration that yields
the node and climbs out of it. -/
def postCost : PTree → Nat
  | .node _ _ cs => postCostL cs + 1

/-- Iterations spent processing a child list: one per childless child, one
descend iteration plus the child's own cost otherwise. -/
def postCostL : List PTree → Nat
  | [] => 0
  | c :: cs => (if c.children.isEmpty then 1 else 1 + postCost c) + postCostL cs

end

/-- `postorder(include_self)` on a tree
(`child_index_stack = [0]; curr = self`). -/
def postorder (t : PTree) (include_self : Bool) : Option (List PTree) :=
  postAux include_self (postCostL t.children + 1) t [] [0]

/-- What the loop does once the top counter is exhausted: yield-and-stop at
the starting node, or yield-and-climb to the parent frame. -/
def postKont (inc : Bool) (fuel : Nat) (t : PTree) : List PTree → List Nat → Option (List PTree)
  | [], _ => some (if inc then [t] else [])
  | p :: anc2, j :: rest2 =>
    (postAux inc fuel p anc2 ((j + 1) :: rest2)).map (fun l => t :: l)
  | _ :: _, [] => none

theorem PTree.sizeL_eq_zero {l : List PTree} (h : PTree.sizeL l = 0) : l = [] := by
  cases l with
  | nil => rfl
  | cons t ts =>
    have := PTree.size_pos t
    have hl : PTree.sizeL (t :: ts) = t.size + PTree.sizeL ts := rfl
    omega

theorem postRL_nil : postRL [] = [] := rfl

theorem postRL_cons (t : PTree) (ts : List PTree) : postRL (t :: ts) = postR t ++ postRL ts := rfl

theorem postR_of_tip (c : PTree) (h : c.children.isEmpty = true) : postR c = [c] := by
  cases c with
  | node n l cs =>
    cases cs with
    | nil => rfl
    | cons x xs => simp [PTree.children] at h

theorem postAux_exhaust (inc : Bool) (t : PTree) (i : Nat) (anc : List PTree)
    (stk : List Nat) (fuel : Nat) (h : ¬ i < t.children.length) :
    postAux inc (fuel + 1) t anc (i :: stk) = postKont inc fuel t anc stk := by
  cases anc with
  | nil => simp [postAux, h, postKont]
  | cons p anc2 =>
    cases stk with
    | nil => simp [postAux, h, postKont]
    | cons j rest2 => simp [postAux, h, postKont]

theorem postAux_step_tip (inc : Bool) (fuel : Nat) (t : PTree) (anc : List PTree) (i : Nat)
    (stk : List Nat) (h : i < t.children.length)
    (htip : (t.children[i]).children.isEmpty = true) :
    postAux inc (fuel + 1) t anc (i :: stk) =
      (postAux inc fuel t anc ((i + 1) :: stk)).map (fun l => t.children[i] :: l) := by
  simp [postAux, h, htip]

theorem postAux_step_desc (inc : Bool) (fuel : Nat) (t : PTree) (anc : List PTree) (i : Nat)
    (stk : List Nat) (h : i < t.children.length)
    (htip : ¬ (t.children[i]).children.isEmpty = true) :
    postAux inc (fuel + 1) t anc (i :: stk) =
      postAux inc fuel (t.children[i]) (t :: anc) (0 :: i :: stk) := by
  simp [postAux, h, htip]

/-- Main invariant of the iterative postorder: starting at node `t` with its
counter at `i`, the loop emits the recursive postorders of the children from
`i` on, then hands control to the continuation (yield `t` and stop or
climb), with exact fuel accounting. -/
theorem postAux_spec (inc : Bool) : ∀ n (t : PTree) (i : Nat) (anc : List PTree)
    (stk : List Nat) (fuel : Nat), PTree.sizeL (t.children.drop i) ≤ n →
    postAux inc (postCostL (t.children.drop i) + 1 + fuel) t anc (i :: stk) =
      (postKont inc fuel t anc stk).map (fun l => postRL (t.children.drop i) ++ l) := by
  intro n
  induction n with
  | zero =>
    intro t i anc stk fuel hn
    have hdrop : t.children.drop i = [] := PTree.sizeL_eq_zero (Nat.le_zero.mp hn)
    have hi : ¬ i < t.children.length := by
      have := List.drop_eq_nil_iff.mp hdrop
      omega
    rw [hdrop, show postCostL ([] : List PTree) + 1 + fuel = fuel + 1 from by
      simp [postCostL]; omega]
    rw [postAux_exhaust inc t i anc stk fuel hi]
    cases hk : postKont inc fuel t anc stk with
    | none => rfl
    | some L => simp [postRL]
  | succ n ih =>
    intro t i anc stk fuel hn
    by_cases h : i < t.children.length
    · have hdrop : t.children.drop i = t.children[i] :: t.children.drop (i + 1) :=
        (List.getElem_cons_drop t.children i h).symm
      have hszc : PTree.sizeL (t.children.drop i) =
          (t.children[i]).size + PTree.sizeL (t.children.drop (i + 1)) := by
        rw [hdrop]; rfl
      have hpos := PTree.size_pos (t.children[i])
      by_cases htip : (t.children[i]).children.isEmpty = true
      · -- the child at index i is childless: it is yielded inline
        have hcost : postCostL (t.children.drop i) =
            1 + postCostL (t.children.drop (i + 1)) := by
          rw [hdrop]; simp [postCostL, htip]
        have hsz : PTree.sizeL (t.children.drop (i + 1)) ≤ n := by omega
        rw [show postCostL (t.children.drop i) + 1 + fuel =
            (postCostL (t.children.drop (i + 1)) + 1 + fuel) + 1 from by omega]
        rw [postAux_step_tip inc _ t anc i stk h htip, ih t (i + 1) anc stk fuel hsz]
        cases hk : postKont inc fuel t anc stk with
        | none => rfl
        | some L =>
          simp only [Option.map_some']
          rw [hdrop, postRL_cons, postR_of_tip _ htip]
          simp
      · -- the child at index i has children: descend into it
        have hcost : postCostL (t.children.drop i) =
            1 + postCost (t.children[i]) + postCostL (t.children.drop (i + 1)) := by
          rw [hdrop]; simp [postCostL, htip]
        have hcostc : postCost (t.children[i]) =
            postCostL ((t.children[i]).children) + 1 := by
          cases hcv : t.children[i] with
          | node nn ll cc => simp [postCost, PTree.children]
        have hszc2 : PTree.sizeL ((t.children[i]).children) ≤ n := by
          have : (t.children[i]).size = 1 + PTree.sizeL ((t.children[i]).children) := by
            cases t.children[i]; rfl
          omega
        have hsz1 : PTree.sizeL (t.children.drop (i + 1)) ≤ n := by omega
        rw [show postCostL (t.children.drop i) + 1 + fuel =
            (postCostL ((t.children[i]).children.drop 0) + 1 +
              (postCostL (t.children.drop (i + 1)) + 1 + fuel)) + 1 from by
          simp [List.drop_zero]; omega]
        rw [postAux_step_desc inc _ t anc i stk h htip]
        rw [ih (t.children[i]) 0 (t :: anc) (i :: stk)
          (postCostL (t.children.drop (i + 1)) + 1 + fuel) (by simpa [List.drop_zero] using hszc2)]
        rw [show postKont inc (postCostL (t.children.drop (i + 1)) + 1 + fuel)
            (t.children[i]) (t :: anc) (i :: stk) =
            (postAux inc (postCostL (t.children.drop (i + 1)) + 1 + fuel) t anc
              ((i + 1) :: stk)).map (fun l => t.children[i] :: l) from rfl]
        rw [ih t (i + 1) anc stk fuel hsz1]
        cases hk : postKont inc fuel t anc stk with
        | none => rfl
        | some L =>
          have hpc : postR (t.children[i]) =
              postRL ((t.children[i]).children) ++ [t.children[i]] := by
            cases t.children[i]; simp [postR, PTree.children]
          simp only [Option.map_some', List.drop_zero]
          rw [hdrop, postRL_cons, hpc]
          simp
    · have hdrop : t.children.drop i = [] :=
        List.drop_eq_nil_iff.mpr (by omega)
      rw [hdrop, show postCostL ([] : List PTree) + 1 + fuel = fuel + 1 from by
        simp [postCostL]; omega]
      rw [postAux_exhaust inc t i anc stk fuel h]
      cases hk : postKont inc fuel t anc stk with
      | none => rfl
      | some L => simp [postRL]

/-- Adequacy of the wrapper fuel: the iterative postorder runs to completion
and produces the recursive postorder (children first, then the node), with
the starting node included only when requested. -/
theorem postorder_eq (t : PTree) (inc : Bool) :
    postorder t inc = some (if inc then postR t else postRL t.children) := by
  have h := postAux_spec inc (PTree.sizeL t.children) t 0 [] [] 0
    (by simp [List.drop_zero])
  rw [postorder, show postCostL t.children + 1 = postCostL (t.children.drop 0) + 1 + 0 from by
    simp [List.drop_zero], h]
  cases inc with
  | true =>
    show some (postRL (t.children.drop 0) ++ [t]) = some (postR t)
    cases t with
    | node n l cs => simp [postR, PTree.children, List.drop_zero]
  | false =>
    show some (postRL (t.children.drop 0) ++ []) = some (postRL t.children)
    simp [List.drop_zero]

theorem postRL_perm_forest (cs : List PTree)
    (h : ∀ c ∈ cs, List.Perm (postR c) (nodesList c)) :
    List.Perm (postRL cs) (nodesListL cs) := by
  induction cs with
  | nil => exact List.Perm.refl _
  | cons c cs ih =>
    rw [postRL_cons, show nodesListL (c :: cs) = nodesList c ++ nodesListL cs from rfl]
    exact List.Perm.append (h c (by simp)) (ih (fun x hx => h x (by simp [hx])))

theorem postR_perm : ∀ t : PTree, List.Perm (postR t) (nodesList t) := by
  refine PTree.inductionOn _ ?_
  intro n l cs ih
  have hf : List.Perm (postRL cs) (nodesListL cs) := postRL_perm_forest cs ih
  show List.Perm (postRL cs ++ [PTree.node n l cs]) (PTree.node n l cs :: nodesListL cs)
  exact (List.perm_append_comm.trans (hf.append_left _)).trans (List.Perm.refl _)

/-- C5: for every tree, the iterative index-stack postorder generator yields
exactly the recursive postorder sequence (for each node, the postorder
sequences of its children in child order followed by the node itself), with
the starting node included last iff `include_self` is true. -/
theorem claim5_thm (t : PTree) (include_self : Bool) :
    postorder t include_self =
      some (if include_self then postR t else postRL t.children) :=
  postorder_eq t include_self

/-- The single-node tree (no name, no length, no children). -/
def tSingle : PTree := PTree.node none none []

/-- C4 as stated fails for `include_self = False`: on the single-node tree,
`preorder(include_self=False)` yields nothing, while the node itself is
reachable, so the yielded multiset is not the reachable multiset. -/
theorem claim4_cex :
    preorder tSingle false = some [] ∧
    (([] : List PTree) : Multiset PTree) ≠ (nodesList tSingle : Multiset PTree) := by
  constructor
  · rw [preorder_false]; rfl
  · intro h
    have hp : List.Perm ([] : List PTree) (nodesList tSingle) := Multiset.coe_eq_coe.mp h
    have := hp.length_eq
    simp [nodesList, tSingle, nodesListL] at this

/-- C4 (amended): for every tree and each of preorder, postorder and
levelorder, with `include_self` true the multiset of yielded nodes equals
the multiset of nodes reachable from the tree, each yielded exactly once;
with `include_self` false it equals the reachable multiset minus one
occurrence of the starting node (which is the sole omission). -/
theorem claim4_thm (t : PTree) :
    (∃ l, preorder t true = some l ∧
      (l : Multiset PTree) = (nodesList t : Multiset PTree)) ∧
    (∃ l, postorder t true = some l ∧
      (l : Multiset PTree) = (nodesList t : Multiset PTree)) ∧
    (∃ l, levelorder t true = some l ∧
      (l : Multiset PTree) = (nodesList t : Multiset PTree)) ∧
    (∃ l, preorder t false = some l ∧
      (nodesList t : Multiset PTree) = t ::ₘ (l : Multiset PTree)) ∧
    (∃ l, postorder t false = some l ∧
      (nodesList t : Multiset PTree) = t ::ₘ (l : Multiset PTree)) ∧
    (∃ l, levelorder t false = some l ∧
      (nodesList t : Multiset PTree) = t ::ₘ (l : Multiset PTree)) := by
  have hnl : nodesList t = t :: nodesListL t.children := by
    cases t with
    | node n l cs => rfl
  refine ⟨⟨nodesList t, preorder_true t, rfl⟩, ?_, ?_, ?_, ?_, ?_⟩
  · exact ⟨postR t, postorder_eq t true, Multiset.coe_eq_coe.mpr (postR_perm t)⟩
  · obtain ⟨l, hl, hm⟩ := levelAux_spec true (t.size + 1) [(t, true)] (by simp [stkSize])
    refine ⟨l, hl, ?_⟩
    rw [hm, show outStk true [(t, true)] = nodesList t ++ [] from rfl]
    simp
  · refine ⟨nodesListL t.children, preorder_false t, ?_⟩
    rw [hnl, Multiset.cons_coe]
  · refine ⟨postRL t.children, postorder_eq t false, ?_⟩
    rw [hnl, Multiset.cons_coe, Multiset.coe_eq_coe]
    exact (List.Perm.cons t (postRL_perm_forest t.children
      (fun c _ => postR_perm c))).symm
  · obtain ⟨l, hl, hm⟩ := levelAux_spec false (t.size + 1) [(t, true)] (by simp [stkSize])
    refine ⟨l, hl, ?_⟩
    rw [hm, show outStk false [(t, true)] = nodesListL t.children ++ [] from rfl,
      hnl, Multiset.cons_coe]
    simp

/-! ## `tip_tip_distances` (tree.py lines 694-755)

Specialised to `endpoints=None`: `tip_order = all_tips`, so `result_map` is
the identity on tip indices and the `tip not in result_map` guards never
fire.  Tips are indexed `0, 1, ...` in `self.tips()` order (left-to-right;
the subsequent postorder sweep visits them in the same relative order).  The
`distances` array and the `result` matrix are modelled as total functions on
`Nat`; `.__start`/`.__stop` of each node are the values threaded through the
sweep.  The postorder loop over per-node actions is realised as the
structurally identical recursion: process all children, then the node's
body (the child-length additions, the `__start`/`__stop` assignment and, for
nodes with at least two children, `update_result`). -/

mutual

/-- The leaf descendants of a node, itself included if childless (the yield
order of the `tips` stack walk, lines 345-359, which is left-to-right). -/
def leavesIncl : PTree → List PTree
  | .node n l cs => if cs.isEmpty then [PTree.node n l cs] else leavesL cs

/-- Leaf descendants of a forest. -/
def leavesL : List PTree → List PTree
  | [] => []
  | c :: cs => leavesIncl c ++ leavesL cs

end

/-- `list(self.tips())` (`include_self=False`): empty when the node itself
is a tip. -/
def tips (t : PTree) : List PTree := if t.children.isEmpty then [] else leavesIncl t

mutual

/-- Number of tips at or below a node (the node itself if childless). -/
def numTips : PTree → Nat
  | .node _ _ cs => if cs.isEmpty then 1 else numTipsL cs

/-- Number of tips of a forest. -/
def numTipsL : List PTree → Nat
  | [] => 0
  | c :: cs => numTips c + numTipsL cs

end

mutual

/-- Depth in edges of each tip below a node, in left-to-right tip order. -/
def tipDepths : PTree → List Nat
  | .node _ _ cs => if cs.isEmpty then [0] else tipDepthsL cs

/-- Depths (to the common parent) of each tip of a forest of children:
each child contributes its own tip depths increased by the child's edge. -/
def tipDepthsL : List PTree → List Nat
  | [] => []
  | c :: cs => (tipDepths c).map (· + 1) ++ tipDepthsL cs

end

/-- Depths of the tips of a forest below their own child roots (no edge to
the common parent added). -/
def ownDepthsL : List PTree → List Nat
  | [] => []
  | c :: cs => tipDepths c ++ ownDepthsL cs

mutual

/-- Number of edges on the path connecting tip `p` and tip `q` (`p < q`, in
left-to-right tip indexing) of a tree: recurse while both tips lie in the
same child; once they lie in different children the path passes through the
current node and its length is the sum of the two tips' depths below it.
This is the specification-side meaning of "the number of edges on the path
connecting those two tips". -/
def pathEdgesT : PTree → Nat → Nat → Nat
  | .node _ _ cs, p, q => pathEdgesF cs p q

/-- Path length between tips `p < q` of a forest sharing a parent. -/
def pathEdgesF : List PTree → Nat → Nat → Nat
  | [], _, _ => 0
  | c :: cs, p, q =>
    if q < numTips c then pathEdgesT c p q
    else if p < numTips c then
      ((tipDepths c).getD p 0 + 1) + (tipDepthsL cs).getD (q - numTips c) 0
    else pathEdgesF cs (p - numTips c) (q - numTips c)

end

/-- Do tips `p < q` of a forest lie below the same child? -/
def sameChild : List PTree → Nat → Nat → Bool
  | [], _, _ => false
  | c :: cs, p, q =>
    if q < numTips c then true
    else if p < numTips c then false
    else sameChild cs (p - numTips c) (q - numTips c)

mutual

/-- Every edge below the node carries branch length exactly 1. -/
def childLens1 : PTree → Bool
  | .node _ _ cs => childLens1L cs

/-- Forest version of `childLens1`. -/
def childLens1L : List PTree → Bool
  | [] => true
  | c :: cs => (decide (c.length = some (1 : ℚ))) && childLens1 c && childLens1L cs

end

/-- `distances[child.__start:child.__stop] += child_len` on the modelled
distances array. -/
def rangeAdd (d : Nat → ℚ) (s e : Nat) (x : ℚ) : Nat → ℚ :=
  fun j => if s ≤ j ∧ j < e then d j + x else d j

/-- One assignment `result[t1idx, t2idx] = distances[tip1] + distances[tip2]`
(with `endpoints=None`, `t1idx = tip1` and `t2idx = tip2`). -/
def writeCell (d : Nat → ℚ) (t1 t2 : Nat) (r : Nat → Nat → ℚ) : Nat → Nat → ℚ :=
  fun a b => if a = t1 ∧ b = t2 then d t1 + d t2 else r a b

/-- Inner loop `for tip2 in range(child2.__start, child2.__stop)` starting
at `s2` with `n` iterations left. -/
def writeRow (d : Nat → ℚ) (t1 : Nat) : Nat → Nat → (Nat → Nat → ℚ) → (Nat → Nat → ℚ)
  | _, 0, r => r
  | s2, n + 1, r => writeRow d t1 (s2 + 1) n (writeCell d t1 s2 r)

/-- Outer loop `for tip1 in range(child1.__start, child1.__stop)`. -/
def writeBlock (d : Nat → ℚ) (s2 e2 : Nat) : Nat → Nat → (Nat → Nat → ℚ) → (Nat → Nat → ℚ)
  | _, 0, r => r
  | s1, n + 1, r => writeBlock d s2 e2 (s1 + 1) n (writeRow d s1 s2 (e2 - s2) r)

/-- `itertools.combinations(l, 2)`, in iteration order. -/
def pairsOf {α : Type} : List α → List (α × α)
  | [] => []
  | x :: xs => xs.map (fun y => (x, y)) ++ pairsOf xs

/-- `update_result()` (lines 720-731): for every ordered pair of distinct
children, write all cross pairs of their tip-index ranges. -/
def update_result (d : Nat → ℚ) (ranges : List (Nat × Nat)) (r : Nat → Nat → ℚ) :
    Nat → Nat → ℚ :=
  (pairsOf ranges).foldl
    (fun r pr => writeBlock d pr.2.1 pr.2.2 pr.1.1 (pr.1.2 - pr.1.1) r) r

/-- The `for child in node.Children` loop body `distances[...] += child_len`
(`child_len = child.Length if not None else default_length`), child by child
against the matching `(start, stop)` ranges. -/
def addLens (dl : ℚ) : List PTree → List (Nat × Nat) → (Nat → ℚ) → (Nat → ℚ)
  | [], _, d => d
  | _ :: _, [], d => d
  | c :: cs, (s, e) :: rgs, d => addLens dl cs rgs (rangeAdd d s e (c.length.getD dl))

/-- `min(starts)` over the collected child starts. -/
def minStarts : List (Nat × Nat) → Nat
  | [] => 0
  | (s, _) :: rgs => rgs.foldl (fun m p => min m p.1) s

/-- `max(stops)` over the collected child stops. -/
def maxStops : List (Nat × Nat) → Nat
  | [] => 0
  | (_, e) :: rgs => rgs.foldl (fun m p => max m p.2) e

mutual

/-- The postorder sweep of `tip_tip_distances`, node case.  Input: the next
unassigned tip index (the `enumerate(all_tips)` pre-pass), the `distances`
array and the `result` matrix; output: the node's `(__start, __stop)`, the
next tip index, and the updated array and matrix.  A tip only receives its
index (the loop body `if not node.Children: continue` skips it); an internal
node first processes its children, then adds each child's length over the
child's range, sets `__start = min(starts)`, `__stop = max(stops)`, and
(with at least two children) runs `update_result`. -/
def sweep (dl : ℚ) : PTree → Nat → (Nat → ℚ) → (Nat → Nat → ℚ) →
    (Nat × Nat) × Nat × (Nat → ℚ) × (Nat → Nat → ℚ)
  | .node _ _ [], idx, d, r => ((idx, idx + 1), idx + 1, d, r)
  | .node _ _ (c :: cs), idx, d, r =>
    let res := sweepL dl (c :: cs) idx d r
    let d2 := addLens dl (c :: cs) res.1 res.2.2.1
    let r2 := if 1 < (c :: cs).length then update_result d2 res.1 res.2.2.2 else res.2.2.2
    ((minStarts res.1, maxStops res.1), res.2.1, d2, r2)

/-- The postorder sweep over a list of children, collecting their ranges. -/
def sweepL (dl : ℚ) : List PTree → Nat → (Nat → ℚ) → (Nat → Nat → ℚ) →
    List (Nat × Nat) × Nat × (Nat → ℚ) × (Nat → Nat → ℚ)
  | [], idx, d, r => ([], idx, d, r)
  | c :: cs, idx, d, r =>
    let rc := sweep dl c idx d r
    let rcs := sweepL dl cs rc.2.1 rc.2.2.1 rc.2.2.2
    (rc.1 :: rcs.1, rcs.2.1, rcs.2.2.1, rcs.2.2.2)

end

/-- `tip_tip_distances(endpoints=None, default_length=dl)`: run the sweep
from tip index 0 on zeroed `distances`/`result`, return `result + result.T`
(as a function on tip indices) and the tip count (`len(tip_order)`). -/
def tip_tip_distances (t : PTree) (dl : ℚ) : (Nat → Nat → ℚ) × Nat :=
  let res := sweep dl t 0 (fun _ => 0) (fun _ _ => 0)
  (fun a b => res.2.2.2 a b + res.2.2.2 b a, (tips t).length)

/-- The consecutive `(__start, __stop)` ranges of a child forest whose first
tip has index `idx`. -/
def rangeList : Nat → List PTree → List (Nat × Nat)
  | _, [] => []
  | idx, c :: cs => (idx, idx + numTips c) :: rangeList (idx + numTips c) cs

/-- Membership of the cell `(a, b)` in the block of a range pair. -/
def inBlock (pr : (Nat × Nat) × (Nat × Nat)) (a b : Nat) : Prop :=
  pr.1.1 ≤ a ∧ a < pr.1.2 ∧ pr.2.1 ≤ b ∧ b < pr.2.2

instance (pr : (Nat × Nat) × (Nat × Nat)) (a b : Nat) : Decidable (inBlock pr a b) := by
  unfold inBlock; infer_instance

theorem writeRow_spec (d : Nat → ℚ) (t1 : Nat) :
    ∀ (n : Nat) (s2 : Nat) (r : Nat → Nat → ℚ) (a b : Nat),
      writeRow d t1 s2 n r a b =
        if a = t1 ∧ s2 ≤ b ∧ b < s2 + n then d a + d b else r a b := by
  intro n
  induction n with
  | zero =>
    intro s2 r a b
    rw [show writeRow d t1 s2 0 r = r from rfl]
    rw [if_neg (by omega)]
  | succ n ih =>
    intro s2 r a b
    rw [show writeRow d t1 s2 (n + 1) r = writeRow d t1 (s2 + 1) n (writeCell d t1 s2 r)
      from rfl, ih]
    by_cases h1 : a = t1 ∧ s2 + 1 ≤ b ∧ b < s2 + 1 + n
    · rw [if_pos h1, if_pos (by omega)]
    · rw [if_neg h1]
      by_cases h2 : a = t1 ∧ s2 ≤ b ∧ b < s2 + (n + 1)
      · have hb : b = s2 := by omega
        have ha : a = t1 := h2.1
        rw [if_pos h2, writeCell, if_pos (by exact ⟨ha, hb⟩)]
        rw [ha, hb]
      · rw [if_neg h2, writeCell, if_neg (by omega)]

theorem writeBlock_spec (d : Nat → ℚ) (s2 e2 : Nat) :
    ∀ (n : Nat) (s1 : Nat) (r : Nat → Nat → ℚ) (a b : Nat),
      writeBlock d s2 e2 s1 n r a b =
        if s1 ≤ a ∧ a < s1 + n ∧ s2 ≤ b ∧ b < e2 then d a + d b else r a b := by
  intro n
  induction n with
  | zero =>
    intro s1 r a b
    rw [show writeBlock d s2 e2 s1 0 r = r from rfl, if_neg (by omega)]
  | succ n ih =>
    intro s1 r a b
    rw [show writeBlock d s2 e2 s1 (n + 1) r =
      writeBlock d s2 e2 (s1 + 1) n (writeRow d s1 s2 (e2 - s2) r) from rfl, ih,
      writeRow_spec]
    by_cases h1 : s1 + 1 ≤ a ∧ a < s1 + 1 + n ∧ s2 ≤ b ∧ b < e2
    · rw [if_pos h1, if_pos (by omega)]
    · rw [if_neg h1]
      by_cases h2 : s1 ≤ a ∧ a < s1 + (n + 1) ∧ s2 ≤ b ∧ b < e2
      · have ha : a = s1 := by omega
        rw [if_pos h2, if_pos (by constructor; exact ha; omega), ha]
      · rw [if_neg h2, if_neg (by omega)]

theorem update_result_fold_spec (d : Nat → ℚ) :
    ∀ (ps : List ((Nat × Nat) × (Nat × Nat))) (r : Nat → Nat → ℚ) (a b : Nat),
      (ps.foldl (fun r pr => writeBlock d pr.2.1 pr.2.2 pr.1.1 (pr.1.2 - pr.1.1) r) r) a b =
        if ∃ pr ∈ ps, inBlock pr a b then d a + d b else r a b := by
  intro ps
  induction ps with
  | nil =>
    intro r a b
    rw [show ([] : List ((Nat × Nat) × (Nat × Nat))).foldl
      (fun r pr => writeBlock d pr.2.1 pr.2.2 pr.1.1 (pr.1.2 - pr.1.1) r) r = r from rfl]
    rw [if_neg (by simp)]
  | cons pr ps ih =>
    intro r a b
    rw [List.foldl_cons, ih, writeBlock_spec]
    by_cases h1 : ∃ x ∈ ps, inBlock x a b
    · rw [if_pos h1, if_pos (by obtain ⟨x, hx, hb⟩ := h1; exact ⟨x, by simp [hx], hb⟩)]
    · rw [if_neg h1]
      by_cases h2 : pr.1.1 ≤ a ∧ a < pr.1.1 + (pr.1.2 - pr.1.1) ∧ pr.2.1 ≤ b ∧ b < pr.2.2
      · rw [if_pos h2, if_pos ⟨pr, by simp, by unfold inBlock; omega⟩]
      · rw [if_neg h2, if_neg ?_]
        rintro ⟨x, hx, hbk⟩
        rcases List.mem_cons.mp hx with h | h
        · subst h; unfold inBlock at hbk; omega
        · exact h1 ⟨x, h, hbk⟩

theorem update_result_spec (d : Nat → ℚ) (ranges : List (Nat × Nat)) (r : Nat → Nat → ℚ)
    (a b : Nat) :
    update_result d ranges r a b =
      if ∃ pr ∈ pairsOf ranges, inBlock pr a b then d a + d b else r a b :=
  update_result_fold_spec d (pairsOf ranges) r a b

theorem numTips_pos : ∀ t : PTree, 0 < numTips t := by
  refine PTree.inductionOn _ ?_
  intro n l cs ih
  cases cs with
  | nil => rw [show numTips (PTree.node n l []) = 1 from rfl]; omega
  | cons c cs =>
    have h1 : numTips (PTree.node n l (c :: cs)) = numTips c + numTipsL cs := rfl
    have := ih c (by simp)
    omega

theorem numTipsL_cons (c : PTree) (cs : List PTree) :
    numTipsL (c :: cs) = numTips c + numTipsL cs := rfl

theorem rangeList_mem_bounds :
    ∀ (cs : List PTree) (idx : Nat) (rg : Nat × Nat), rg ∈ rangeList idx cs →
      idx ≤ rg.1 ∧ rg.1 < rg.2 ∧ rg.2 ≤ idx + numTipsL cs := by
  intro cs
  induction cs with
  | nil => intro idx rg h; simp [rangeList] at h
  | cons c cs ih =>
    intro idx rg h
    rw [show rangeList idx (c :: cs) =
      (idx, idx + numTips c) :: rangeList (idx + numTips c) cs from rfl] at h
    rcases List.mem_cons.mp h with h1 | h2
    · subst h1
      have := numTips_pos c
      rw [numTipsL_cons]
      refine ⟨le_rfl, by omega, by omega⟩
    · obtain ⟨b1, b2, b3⟩ := ih (idx + numTips c) rg h2
      rw [numTipsL_cons]
      exact ⟨by omega, b2, by omega⟩

theorem pairsOf_mem_bounds :
    ∀ (cs : List PTree) (idx : Nat) (pr : (Nat × Nat) × (Nat × Nat)),
      pr ∈ pairsOf (rangeList idx cs) →
      idx ≤ pr.1.1 ∧ pr.1.1 < pr.1.2 ∧ pr.1.2 ≤ pr.2.1 ∧ pr.2.1 < pr.2.2 ∧
        pr.2.2 ≤ idx + numTipsL cs := by
  intro cs
  induction cs with
  | nil => intro idx pr h; simp [rangeList, pairsOf] at h
  | cons c cs ih =>
    intro idx pr h
    rw [show rangeList idx (c :: cs) =
      (idx, idx + numTips c) :: rangeList (idx + numTips c) cs from rfl] at h
    rw [show pairsOf ((idx, idx + numTips c) :: rangeList (idx + numTips c) cs) =
      (rangeList (idx + numTips c) cs).map (fun y => ((idx, idx + numTips c), y)) ++
        pairsOf (rangeList (idx + numTips c) cs) from rfl] at h
    have hntc := numTips_pos c
    rcases List.mem_append.mp h with h1 | h2
    · obtain ⟨y, hy, hpr⟩ := List.mem_map.mp h1
      obtain ⟨b1, b2, b3⟩ := rangeList_mem_bounds cs (idx + numTips c) y hy
      subst hpr
      rw [numTipsL_cons]
      dsimp only
      exact ⟨le_rfl, by omega, by omega, b2, by omega⟩
    · obtain ⟨b1, b2, b3, b4, b5⟩ := ih (idx + numTips c) pr h2
      rw [numTipsL_cons]
      exact ⟨by omega, b2, b3, b4, by omega⟩

theorem foldl_min_const (l : List (Nat × Nat)) :
    ∀ m, (∀ p ∈ l, m ≤ p.1) → l.foldl (fun m p => min m p.1) m = m := by
  induction l with
  | nil => intro m _; rfl
  | cons p l ih =>
    intro m h
    rw [List.foldl_cons, show min m p.1 = m from by have := h p (by simp); omega]
    exact ih m (fun q hq => h q (by simp [hq]))

theorem minStarts_rangeList (cs : List PTree) (idx : Nat) (h : cs ≠ []) :
    minStarts (rangeList idx cs) = idx := by
  cases cs with
  | nil => exact absurd rfl h
  | cons c cs =>
    rw [show rangeList idx (c :: cs) =
      (idx, idx + numTips c) :: rangeList (idx + numTips c) cs from rfl]
    rw [show minStarts ((idx, idx + numTips c) :: rangeList (idx + numTips c) cs) =
      (rangeList (idx + numTips c) cs).foldl (fun m p => min m p.1) idx from rfl]
    refine foldl_min_const _ idx (fun p hp => ?_)
    have := rangeList_mem_bounds cs (idx + numTips c) p hp
    omega

theorem foldl_max_rangeList :
    ∀ (cs : List PTree) (idx m : Nat), m ≤ idx →
      (rangeList idx cs).foldl (fun m p => max m p.2) m =
        (if cs.isEmpty then m else idx + numTipsL cs) := by
  intro cs
  induction cs with
  | nil => intro idx m _; rfl
  | cons c cs ih =>
    intro idx m hm
    have hntc := numTips_pos c
    rw [show rangeList idx (c :: cs) =
      (idx, idx + numTips c) :: rangeList (idx + numTips c) cs from rfl,
      List.foldl_cons,
      show (max m (idx, idx + numTips c).2) = idx + numTips c from by simp; omega,
      ih (idx + numTips c) (idx + numTips c) le_rfl]
    cases cs with
    | nil => simp [numTipsL_cons, show numTipsL [] = 0 from rfl]
    | cons c2 cs2 => simp [numTipsL_cons]; omega

theorem maxStops_rangeList (cs : List PTree) (idx : Nat) (h : cs ≠ []) :
    maxStops (rangeList idx cs) = idx + numTipsL cs := by
  cases cs with
  | nil => exact absurd rfl h
  | cons c cs =>
    have hntc := numTips_pos c
    rw [show rangeList idx (c :: cs) =
      (idx, idx + numTips c) :: rangeList (idx + numTips c) cs from rfl]
    rw [show maxStops ((idx, idx + numTips c) :: rangeList (idx + numTips c) cs) =
      (rangeList (idx + numTips c) cs).foldl (fun m p => max m p.2) (idx + numTips c)
      from rfl]
    rw [foldl_max_rangeList cs (idx + numTips c) (idx + numTips c) le_rfl]
    cases cs with
    | nil => simp [numTipsL_cons, show numTipsL [] = 0 from rfl]
    | cons c2 cs2 => simp [numTipsL_cons]; omega

theorem addLens_outside (dl : ℚ) :
    ∀ (cs : List PTree) (rgs : List (Nat × Nat)) (d : Nat → ℚ) (j : Nat),
      (∀ rg ∈ rgs, ¬(rg.1 ≤ j ∧ j < rg.2)) → addLens dl cs rgs d j = d j := by
  intro cs
  induction cs with
  | nil => intro rgs d j _; rfl
  | cons c cs ih =>
    intro rgs d j h
    cases rgs with
    | nil => rfl
    | cons rg rgs =>
      obtain ⟨s, e⟩ := rg
      rw [show addLens dl (c :: cs) ((s, e) :: rgs) d =
        addLens dl cs rgs (rangeAdd d s e (c.length.getD dl)) from rfl]
      rw [ih rgs _ j (fun q hq => h q (by simp [hq]))]
      rw [rangeAdd, if_neg (by have := h (s, e) (by simp); simpa using this)]

/-- Bookkeeping invariant of the sweep at a node: the assigned range is
`[idx, idx + numTips)`, the next free tip index moves past it, `distances`
is untouched outside the range, and `result` is untouched outside
strictly-increasing index pairs inside the range. -/
def SweepG (dl : ℚ) (t : PTree) : Prop :=
  ∀ idx d r,
    (sweep dl t idx d r).1 = (idx, idx + numTips t) ∧
    (sweep dl t idx d r).2.1 = idx + numTips t ∧
    (∀ j, j < idx ∨ idx + numTips t ≤ j → (sweep dl t idx d r).2.2.1 j = d j) ∧
    (∀ a b, ¬(idx ≤ a ∧ a < b ∧ b < idx + numTips t) →
      (sweep dl t idx d r).2.2.2 a b = r a b)

/-- Forest version of `SweepG`: the children receive the consecutive ranges
`rangeList idx cs`. -/
def SweepLG (dl : ℚ) (cs : List PTree) : Prop :=
  ∀ idx d r,
    (sweepL dl cs idx d r).1 = rangeList idx cs ∧
    (sweepL dl cs idx d r).2.1 = idx + numTipsL cs ∧
    (∀ j, j < idx ∨ idx + numTipsL cs ≤ j → (sweepL dl cs idx d r).2.2.1 j = d j) ∧
    (∀ a b, ¬(idx ≤ a ∧ a < b ∧ b < idx + numTipsL cs) →
      (sweepL dl cs idx d r).2.2.2 a b = r a b)

theorem sweepL_G (dl : ℚ) (cs : List PTree) (h : ∀ c ∈ cs, SweepG dl c) :
    SweepLG dl cs := by
  induction cs with
  | nil =>
    intro idx d r
    exact ⟨rfl, rfl, fun j _ => rfl, fun a b _ => rfl⟩
  | cons c cs ih =>
    intro idx d r
    obtain ⟨hc1, hc2, hc3, hc4⟩ := h c (by simp) idx d r
    have hstep : sweepL dl (c :: cs) idx d r =
        ((sweep dl c idx d r).1 ::
          (sweepL dl cs (sweep dl c idx d r).2.1 (sweep dl c idx d r).2.2.1
            (sweep dl c idx d r).2.2.2).1,
         (sweepL dl cs (sweep dl c idx d r).2.1 (sweep dl c idx d r).2.2.1
            (sweep dl c idx d r).2.2.2).2.1,
         (sweepL dl cs (sweep dl c idx d r).2.1 (sweep dl c idx d r).2.2.1
            (sweep dl c idx d r).2.2.2).2.2.1,
         (sweepL dl cs (sweep dl c idx d r).2.1 (sweep dl c idx d r).2.2.1
            (sweep dl c idx d r).2.2.2).2.2.2) := rfl
    rw [hc2] at hstep
    obtain ⟨hs1, hs2, hs3, hs4⟩ := ih (fun x hx => h x (by simp [hx])) (idx + numTips c)
      (sweep dl c idx d r).2.2.1 (sweep dl c idx d r).2.2.2
    rw [hstep]
    have hnt := numTips_pos c
    refine ⟨?_, ?_, ?_, ?_⟩
    · rw [hc1, hs1]
      rfl
    · rw [hs2, numTipsL_cons]
      omega
    · intro j hj
      rw [numTipsL_cons] at hj
      rw [hs3 j (by omega), hc3 j (by omega)]
    · intro a b hab
      rw [numTipsL_cons] at hab
      rw [hs4 a b (by omega), hc4 a b (by omega)]

theorem sweep_G (dl : ℚ) : ∀ t : PTree, SweepG dl t := by
  refine PTree.inductionOn _ ?_
  intro n l cs ih
  cases cs with
  | nil =>
    intro idx d r
    refine ⟨?_, ?_, fun j _ => rfl, fun a b _ => rfl⟩
    · rw [show (sweep dl (PTree.node n l []) idx d r).1 = (idx, idx + 1) from rfl,
        show numTips (PTree.node n l []) = 1 from rfl]
    · rw [show (sweep dl (PTree.node n l []) idx d r).2.1 = idx + 1 from rfl,
        show numTips (PTree.node n l []) = 1 from rfl]
  | cons c cs =>
    intro idx d r
    have hF := sweepL_G dl (c :: cs) ih idx d r
    obtain ⟨hf1, hf2, hf3, hf4⟩ := hF
    have hnt : numTips (PTree.node n l (c :: cs)) = numTipsL (c :: cs) := rfl
    have hstep : sweep dl (PTree.node n l (c :: cs)) idx d r =
        ((minStarts (sweepL dl (c :: cs) idx d r).1,
          maxStops (sweepL dl (c :: cs) idx d r).1),
         (sweepL dl (c :: cs) idx d r).2.1,
         addLens dl (c :: cs) (sweepL dl (c :: cs) idx d r).1
           (sweepL dl (c :: cs) idx d r).2.2.1,
         if 1 < (c :: cs).length then
           update_result
             (addLens dl (c :: cs) (sweepL dl (c :: cs) idx d r).1
               (sweepL dl (c :: cs) idx d r).2.2.1)
             (sweepL dl (c :: cs) idx d r).1 (sweepL dl (c :: cs) idx d r).2.2.2
         else (sweepL dl (c :: cs) idx d r).2.2.2) := rfl
    rw [hstep, hnt]
    refine ⟨?_, ?_, ?_, ?_⟩
    · dsimp only
      rw [hf1, minStarts_rangeList _ _ (by simp), maxStops_rangeList _ _ (by simp)]
    · dsimp only
      exact hf2
    · intro j hj
      dsimp only
      rw [hf1]
      rw [addLens_outside dl (c :: cs) _ _ j (fun rg hrg => ?_), hf3 j hj]
      have := rangeList_mem_bounds (c :: cs) idx rg hrg
      omega
    · intro a b hab
      dsimp only
      by_cases hlen : 1 < (c :: cs).length
      · rw [if_pos hlen]
        rw [hf1, update_result_spec]
        rw [if_neg ?_, hf4 a b hab]
        rintro ⟨pr, hpr, hblk⟩
        have := pairsOf_mem_bounds (c :: cs) idx pr hpr
        unfold inBlock at hblk
        omega
      · rw [if_neg hlen]
        exact hf4 a b hab

theorem tipDepthsL_length_of (cs : List PTree)
    (h : ∀ c ∈ cs, (tipDepths c).length = numTips c) :
    (tipDepthsL cs).length = numTipsL cs := by
  induction cs with
  | nil => rfl
  | cons c cs ih =>
    rw [show tipDepthsL (c :: cs) = (tipDepths c).map (· + 1) ++ tipDepthsL cs from rfl,
      List.length_append, List.length_map, numTipsL_cons, h c (by simp),
      ih (fun x hx => h x (by simp [hx]))]

theorem tipDepths_length : ∀ t : PTree, (tipDepths t).length = numTips t := by
  refine PTree.inductionOn _ ?_
  intro n l cs ih
  cases cs with
  | nil => rfl
  | cons c cs =>
    rw [show tipDepths (PTree.node n l (c :: cs)) = tipDepthsL (c :: cs) from rfl,
      show numTips (PTree.node n l (c :: cs)) = numTipsL (c :: cs) from rfl]
    exact tipDepthsL_length_of _ ih

theorem tipDepthsL_length (cs : List PTree) : (tipDepthsL cs).length = numTipsL cs :=
  tipDepthsL_length_of cs (fun c _ => tipDepths_length c)

theorem ownDepthsL_length (cs : List PTree) : (ownDepthsL cs).length = numTipsL cs := by
  induction cs with
  | nil => rfl
  | cons c cs ih =>
    rw [show ownDepthsL (c :: cs) = tipDepths c ++ ownDepthsL cs from rfl,
      List.length_append, tipDepths_length, numTipsL_cons, ih]

theorem getD_map_add1 (l : List Nat) :
    ∀ k, k < l.length → (l.map (· + 1)).getD k 0 = l.getD k 0 + 1 := by
  induction l with
  | nil => intro k h; simp at h
  | cons x l ih =>
    intro k h
    cases k with
    | zero => rfl
    | succ k => exact ih k (by simpa using h)

theorem tipDepthsL_getD (cs : List PTree) :
    ∀ k, k < numTipsL cs → (tipDepthsL cs).getD k 0 = (ownDepthsL cs).getD k 0 + 1 := by
  induction cs with
  | nil => intro k h; rw [show numTipsL [] = 0 from rfl] at h; omega
  | cons c cs ih =>
    intro k h
    rw [show tipDepthsL (c :: cs) = (tipDepths c).map (· + 1) ++ tipDepthsL cs from rfl,
      show ownDepthsL (c :: cs) = tipDepths c ++ ownDepthsL cs from rfl]
    by_cases hk : k < numTips c
    · rw [List.getD_append _ _ _ _ (by simp [tipDepths_length]; omega),
        List.getD_append _ _ _ _ (by rw [tipDepths_length]; omega),
        getD_map_add1 _ k (by rw [tipDepths_length]; omega)]
    · rw [numTipsL_cons] at h
      rw [List.getD_append_right _ _ _ _ (by simp [tipDepths_length]; omega),
        List.getD_append_right _ _ _ _ (by rw [tipDepths_length]; omega),
        List.length_map, tipDepths_length]
      exact ih (k - numTips c) (by omega)

theorem childLens1L_mem (cs : List PTree) (h : childLens1L cs = true) :
    ∀ c ∈ cs, c.length = some (1 : ℚ) ∧ childLens1 c = true := by
  induction cs with
  | nil => intro c hc; cases hc
  | cons x cs ih =>
    rw [show childLens1L (x :: cs) =
      ((decide (x.length = some (1 : ℚ))) && childLens1 x && childLens1L cs) from rfl,
      Bool.and_eq_true, Bool.and_eq_true] at h
    intro c hc
    rcases List.mem_cons.mp hc with h1 | h2
    · subst h1; exact ⟨of_decide_eq_true h.1.1, h.1.2⟩
    · exact ih h.2 c h2

theorem addLens_unit (dl : ℚ) :
    ∀ (cs : List PTree) (idx : Nat) (d : Nat → ℚ) (j : Nat),
      (∀ c ∈ cs, c.length = some (1 : ℚ)) →
      addLens dl cs (rangeList idx cs) d j =
        if idx ≤ j ∧ j < idx + numTipsL cs then d j + 1 else d j := by
  intro cs
  induction cs with
  | nil =>
    intro idx d j _
    rw [show addLens dl [] (rangeList idx []) d = d from rfl,
      if_neg (by rw [show numTipsL [] = 0 from rfl]; omega)]
  | cons c cs ih =>
    intro idx d j hlen
    rw [show rangeList idx (c :: cs) =
      (idx, idx + numTips c) :: rangeList (idx + numTips c) cs from rfl,
      show addLens dl (c :: cs) ((idx, idx + numTips c) :: rangeList (idx + numTips c) cs) d =
        addLens dl cs (rangeList (idx + numTips c) cs)
          (rangeAdd d idx (idx + numTips c) (c.length.getD dl)) from rfl,
      ih (idx + numTips c) _ j (fun x hx => hlen x (by simp [hx])),
      hlen c (by simp)]
    rw [show (some (1 : ℚ)).getD dl = 1 from rfl]
    rw [numTipsL_cons]
    simp only [rangeAdd]
    have hntc := numTips_pos c
    by_cases h1 : idx + numTips c ≤ j ∧ j < idx + numTips c + numTipsL cs
    · rw [if_pos h1,
        if_neg (show ¬(idx ≤ j ∧ j < idx + numTips c) from by omega),
        if_pos (show idx ≤ j ∧ j < idx + (numTips c + numTipsL cs) from by omega)]
    · rw [if_neg h1]
      by_cases h2 : idx ≤ j ∧ j < idx + numTips c
      · rw [if_pos h2,
          if_pos (show idx ≤ j ∧ j < idx + (numTips c + numTipsL cs) from by omega)]
      · rw [if_neg h2,
          if_neg (show ¬(idx ≤ j ∧ j < idx + (numTips c + numTipsL cs)) from by omega)]

theorem rangeList_cover :
    ∀ (cs : List PTree) (idx b : Nat), idx ≤ b → b < idx + numTipsL cs →
      ∃ rg ∈ rangeList idx cs, rg.1 ≤ b ∧ b < rg.2 := by
  intro cs
  induction cs with
  | nil =>
    intro idx b h1 h2
    rw [show numTipsL [] = 0 from rfl] at h2
    omega
  | cons c cs ih =>
    intro idx b h1 h2
    rw [numTipsL_cons] at h2
    rw [show rangeList idx (c :: cs) =
      (idx, idx + numTips c) :: rangeList (idx + numTips c) cs from rfl]
    by_cases hb : b < idx + numTips c
    · exact ⟨(idx, idx + numTips c), by simp, h1, hb⟩
    · obtain ⟨rg, hrg, hb1, hb2⟩ := ih (idx + numTips c) b (by omega) (by omega)
      exact ⟨rg, by simp [hrg], hb1, hb2⟩

theorem sameChild_cons (c : PTree) (cs : List PTree) (p q : Nat) :
    sameChild (c :: cs) p q =
      (if q < numTips c then true
       else if p < numTips c then false
       else sameChild cs (p - numTips c) (q - numTips c)) := rfl

theorem pairsOf_rangeList_cons (c : PTree) (cs : List PTree) (idx : Nat) :
    pairsOf (rangeList idx (c :: cs)) =
      (rangeList (idx + numTips c) cs).map (fun y => ((idx, idx + numTips c), y)) ++
        pairsOf (rangeList (idx + numTips c) cs) := rfl

theorem crossPair_block :
    ∀ (cs : List PTree) (idx a b : Nat), idx ≤ a → a < b → b < idx + numTipsL cs →
      sameChild cs (a - idx) (b - idx) = false →
      ∃ pr ∈ pairsOf (rangeList idx cs), inBlock pr a b := by
  intro cs
  induction cs with
  | nil =>
    intro idx a b h1 h2 h3 _
    rw [show numTipsL [] = 0 from rfl] at h3
    omega
  | cons c cs ih =>
    intro idx a b ha hab hb hsc
    rw [numTipsL_cons] at hb
    rw [sameChild_cons] at hsc
    rw [pairsOf_rangeList_cons]
    by_cases hbc : b - idx < numTips c
    · rw [if_pos hbc] at hsc; cases hsc
    · rw [if_neg hbc] at hsc
      by_cases hac : a - idx < numTips c
      · rw [if_pos hac] at hsc
        obtain ⟨rg, hrg, h1, h2⟩ := rangeList_cover cs (idx + numTips c) b
          (by omega) (by omega)
        refine ⟨((idx, idx + numTips c), rg), ?_, ?_⟩
        · exact List.mem_append_left _ (List.mem_map.mpr ⟨rg, hrg, rfl⟩)
        · unfold inBlock
          dsimp only
          omega
      · rw [if_neg hac] at hsc
        have harw : a - idx - numTips c = a - (idx + numTips c) := by omega
        have hbrw : b - idx - numTips c = b - (idx + numTips c) := by omega
        rw [harw, hbrw] at hsc
        obtain ⟨pr, hpr, hblk⟩ := ih (idx + numTips c) a b (by omega) hab (by omega) hsc
        exact ⟨pr, List.mem_append_right _ hpr, hblk⟩

theorem sameChild_no_block :
    ∀ (cs : List PTree) (idx a b : Nat), idx ≤ a → a < b → b < idx + numTipsL cs →
      sameChild cs (a - idx) (b - idx) = true →
      ∀ pr ∈ pairsOf (rangeList idx cs), ¬ inBlock pr a b := by
  intro cs
  induction cs with
  | nil =>
    intro idx a b h1 h2 h3 _
    rw [show numTipsL [] = 0 from rfl] at h3
    omega
  | cons c cs ih =>
    intro idx a b ha hab hb hsc pr hpr hblk
    rw [numTipsL_cons] at hb
    rw [sameChild_cons] at hsc
    rw [pairsOf_rangeList_cons] at hpr
    rcases List.mem_append.mp hpr with h1 | h2
    · obtain ⟨y, hy, hpr2⟩ := List.mem_map.mp h1
      subst hpr2
      obtain ⟨yb1, yb2, yb3⟩ := rangeList_mem_bounds cs (idx + numTips c) y hy
      unfold inBlock at hblk
      dsimp only at hblk
      have hbge : ¬ (b - idx < numTips c) := by omega
      have hage : a - idx < numTips c := by omega
      rw [if_neg hbge, if_pos hage] at hsc
      cases hsc
    · obtain ⟨b1, b2, b3, b4, b5⟩ := pairsOf_mem_bounds cs (idx + numTips c) pr h2
      unfold inBlock at hblk
      have hbge : ¬ (b - idx < numTips c) := by omega
      have hage : ¬ (a - idx < numTips c) := by omega
      rw [if_neg hbge, if_neg hage] at hsc
      have harw : a - idx - numTips c = a - (idx + numTips c) := by omega
      have hbrw : b - idx - numTips c = b - (idx + numTips c) := by omega
      rw [harw, hbrw] at hsc
      exact ih (idx + numTips c) a b (by omega) hab (by omega) hsc pr h2 hblk

theorem pathEdgesF_cons (c : PTree) (cs : List PTree) (p q : Nat) :
    pathEdgesF (c :: cs) p q =
      (if q < numTips c then pathEdgesT c p q
       else if p < numTips c then
         ((tipDepths c).getD p 0 + 1) + (tipDepthsL cs).getD (q - numTips c) 0
       else pathEdgesF cs (p - numTips c) (q - numTips c)) := rfl

theorem pathEdgesF_cross :
    ∀ (cs : List PTree) (p q : Nat), p < q → q < numTipsL cs → sameChild cs p q = false →
      pathEdgesF cs p q = (tipDepthsL cs).getD p 0 + (tipDepthsL cs).getD q 0 := by
  intro cs
  induction cs with
  | nil =>
    intro p q h1 h2 _
    rw [show numTipsL [] = 0 from rfl] at h2
    omega
  | cons c cs ih =>
    intro p q hpq hq hsc
    rw [numTipsL_cons] at hq
    rw [sameChild_cons] at hsc
    rw [pathEdgesF_cons]
    rw [show tipDepthsL (c :: cs) = (tipDepths c).map (· + 1) ++ tipDepthsL cs from rfl]
    by_cases hqc : q < numTips c
    · rw [if_pos hqc] at hsc; cases hsc
    · rw [if_neg hqc] at hsc
      rw [if_neg hqc]
      by_cases hpc : p < numTips c
      · rw [if_pos hpc,
          List.getD_append _ _ _ _ (by simp [tipDepths_length]; omega),
          List.getD_append_right _ _ _ _ (by simp [tipDepths_length]; omega),
          getD_map_add1 _ p (by rw [tipDepths_length]; omega),
          List.length_map, tipDepths_length]
      · rw [if_neg hpc] at hsc ⊢
        rw [List.getD_append_right _ _ _ _ (by simp [tipDepths_length]; omega),
          List.getD_append_right _ _ _ _ (by simp [tipDepths_length]; omega),
          List.length_map, tipDepths_length]
        exact ih (p - numTips c) (q - numTips c) (by omega) (by omega) hsc

/-- Value invariant of the sweep under unit branch lengths: after sweeping a
node whose subtree edges all have length 1, starting from a zeroed stretch
of `distances`, each tip's distance entry is its edge depth below the node,
and every strictly increasing in-range index pair of `result` holds the
number of edges on the path connecting the two tips. -/
def SweepU (dl : ℚ) (t : PTree) : Prop :=
  ∀ idx d r, childLens1 t = true → (∀ j, idx ≤ j → j < idx + numTips t → d j = 0) →
    (∀ j, idx ≤ j → j < idx + numTips t →
      (sweep dl t idx d r).2.2.1 j = ((tipDepths t).getD (j - idx) 0 : ℚ)) ∧
    (∀ a b, idx ≤ a → a < b → b < idx + numTips t →
      (sweep dl t idx d r).2.2.2 a b = (pathEdgesT t (a - idx) (b - idx) : ℚ))

/-- Forest version of `SweepU`: after the children's sweeps (before the
parent's own step) each tip's entry is its depth below its own child root;
pairs below a common child already hold their path value, and pairs from
different children are still untouched. -/
def SweepLU (dl : ℚ) (cs : List PTree) : Prop :=
  ∀ idx d r, childLens1L cs = true →
    (∀ j, idx ≤ j → j < idx + numTipsL cs → d j = 0) →
    (∀ j, idx ≤ j → j < idx + numTipsL cs →
      (sweepL dl cs idx d r).2.2.1 j = ((ownDepthsL cs).getD (j - idx) 0 : ℚ)) ∧
    (∀ a b, idx ≤ a → a < b → b < idx + numTipsL cs →
      sameChild cs (a - idx) (b - idx) = true →
      (sweepL dl cs idx d r).2.2.2 a b = (pathEdgesF cs (a - idx) (b - idx) : ℚ)) ∧
    (∀ a b, idx ≤ a → a < b → b < idx + numTipsL cs →
      sameChild cs (a - idx) (b - idx) = false →
      (sweepL dl cs idx d r).2.2.2 a b = r a b)

theorem sweepL_U (dl : ℚ) (cs : List PTree) (h : ∀ c ∈ cs, SweepU dl c) :
    SweepLU dl cs := by
  induction cs with
  | nil =>
    intro idx d r _ _
    refine ⟨fun j h1 h2 => ?_, fun a b h1 h2 h3 _ => ?_, fun a b h1 h2 h3 _ => ?_⟩
    · rw [show numTipsL [] = 0 from rfl] at h2; omega
    · rw [show numTipsL [] = 0 from rfl] at h3; omega
    · rw [show numTipsL [] = 0 from rfl] at h3; omega
  | cons c cs ih =>
    intro idx d r hch hz
    have hntc := numTips_pos c
    rw [show childLens1L (c :: cs) =
      ((decide (c.length = some (1 : ℚ))) && childLens1 c && childLens1L cs) from rfl,
      Bool.and_eq_true, Bool.and_eq_true] at hch
    have hzc : ∀ j, idx ≤ j → j < idx + numTips c → d j = 0 := by
      intro j h1 h2
      exact hz j h1 (by rw [numTipsL_cons]; omega)
    obtain ⟨hcd, hcr⟩ := h c (by simp) idx d r hch.1.2 hzc
    obtain ⟨gc1, gc2, gc3, gc4⟩ := sweep_G dl c idx d r
    have hstep : sweepL dl (c :: cs) idx d r =
        ((sweep dl c idx d r).1 ::
          (sweepL dl cs (sweep dl c idx d r).2.1 (sweep dl c idx d r).2.2.1
            (sweep dl c idx d r).2.2.2).1,
         (sweepL dl cs (sweep dl c idx d r).2.1 (sweep dl c idx d r).2.2.1
            (sweep dl c idx d r).2.2.2).2.1,
         (sweepL dl cs (sweep dl c idx d r).2.1 (sweep dl c idx d r).2.2.1
            (sweep dl c idx d r).2.2.2).2.2.1,
         (sweepL dl cs (sweep dl c idx d r).2.1 (sweep dl c idx d r).2.2.1
            (sweep dl c idx d r).2.2.2).2.2.2) := rfl
    rw [gc2] at hstep
    have hzcs : ∀ j, idx + numTips c ≤ j → j < idx + numTips c + numTipsL cs →
        (sweep dl c idx d r).2.2.1 j = 0 := by
      intro j h1 h2
      rw [gc3 j (by omega)]
      exact hz j (by omega) (by rw [numTipsL_cons]; omega)
    obtain ⟨hd2, hr2, hr3⟩ := ih (fun x hx => h x (by simp [hx])) (idx + numTips c)
      (sweep dl c idx d r).2.2.1 (sweep dl c idx d r).2.2.2 hch.2 hzcs
    obtain ⟨gf1, gf2, gf3, gf4⟩ := sweepL_G dl cs (fun x _ => sweep_G dl x) (idx + numTips c)
      (sweep dl c idx d r).2.2.1 (sweep dl c idx d r).2.2.2
    rw [hstep]
    refine ⟨?_, ?_, ?_⟩
    · intro j h1 h2
      rw [numTipsL_cons] at h2
      dsimp only
      rw [show ownDepthsL (c :: cs) = tipDepths c ++ ownDepthsL cs from rfl]
      by_cases hj : j < idx + numTips c
      · rw [gf3 j (by omega), hcd j h1 hj,
          List.getD_append _ _ _ _ (by rw [tipDepths_length]; omega)]
      · rw [hd2 j (by omega) (by omega),
          List.getD_append_right _ _ _ _ (by rw [tipDepths_length]; omega),
          tipDepths_length,
          show j - (idx + numTips c) = j - idx - numTips c from by omega]
    · intro a b h1 h2 h3 hsc
      rw [numTipsL_cons] at h3
      rw [sameChild_cons] at hsc
      dsimp only
      rw [pathEdgesF_cons]
      by_cases hbc : b - idx < numTips c
      · rw [if_pos hbc] at hsc ⊢
        rw [gf4 a b (by omega), hcr a b h1 h2 (by omega)]
      · rw [if_neg hbc] at hsc ⊢
        by_cases hac : a - idx < numTips c
        · rw [if_pos hac] at hsc; cases hsc
        · rw [if_neg hac] at hsc ⊢
          have harw : a - idx - numTips c = a - (idx + numTips c) := by omega
          have hbrw : b - idx - numTips c = b - (idx + numTips c) := by omega
          rw [harw, hbrw] at hsc ⊢
          exact hr2 a b (by omega) h2 (by omega) hsc
    · intro a b h1 h2 h3 hsc
      rw [numTipsL_cons] at h3
      rw [sameChild_cons] at hsc
      dsimp only
      by_cases hbc : b - idx < numTips c
      · rw [if_pos hbc] at hsc; cases hsc
      · rw [if_neg hbc] at hsc
        by_cases hac : a - idx < numTips c
        · rw [gf4 a b (by omega), gc4 a b (by omega)]
        · rw [if_neg hac] at hsc
          have harw : a - idx - numTips c = a - (idx + numTips c) := by omega
          have hbrw : b - idx - numTips c = b - (idx + numTips c) := by omega
          rw [harw, hbrw] at hsc
          rw [hr3 a b (by omega) h2 (by omega) hsc, gc4 a b (by omega)]

theorem sweep_U (dl : ℚ) : ∀ t : PTree, SweepU dl t := by
  refine PTree.inductionOn _ ?_
  intro n l cs ih
  cases cs with
  | nil =>
    intro idx d r _ hz
    refine ⟨fun j h1 h2 => ?_, fun a b h1 h2 h3 => ?_⟩
    · rw [show numTips (PTree.node n l []) = 1 from rfl] at h2
      rw [show (sweep dl (PTree.node n l []) idx d r).2.2.1 = d from rfl,
        hz j h1 (by rw [show numTips (PTree.node n l []) = 1 from rfl]; omega)]
      rw [show j - idx = 0 from by omega,
        show tipDepths (PTree.node n l []) = [0] from rfl]
      rfl
    · rw [show numTips (PTree.node n l []) = 1 from rfl] at h3
      omega
  | cons c cs =>
    intro idx d r hch hz
    have hnt : numTips (PTree.node n l (c :: cs)) = numTipsL (c :: cs) := rfl
    rw [hnt] at hz
    have hch2 : childLens1L (c :: cs) = true := hch
    have hlens : ∀ x ∈ c :: cs, x.length = some (1 : ℚ) :=
      fun x hx => (childLens1L_mem _ hch2 x hx).1
    obtain ⟨fd, fr, fr0⟩ := sweepL_U dl (c :: cs) ih idx d r hch2 hz
    obtain ⟨gf1, gf2, gf3, gf4⟩ := sweepL_G dl (c :: cs) (fun x _ => sweep_G dl x) idx d r
    have hstep : sweep dl (PTree.node n l (c :: cs)) idx d r =
        ((minStarts (sweepL dl (c :: cs) idx d r).1,
          maxStops (sweepL dl (c :: cs) idx d r).1),
         (sweepL dl (c :: cs) idx d r).2.1,
         addLens dl (c :: cs) (sweepL dl (c :: cs) idx d r).1
           (sweepL dl (c :: cs) idx d r).2.2.1,
         if 1 < (c :: cs).length then
           update_result
             (addLens dl (c :: cs) (sweepL dl (c :: cs) idx d r).1
               (sweepL dl (c :: cs) idx d r).2.2.1)
             (sweepL dl (c :: cs) idx d r).1 (sweepL dl (c :: cs) idx d r).2.2.2
         else (sweepL dl (c :: cs) idx d r).2.2.2) := rfl
    rw [gf1] at hstep
    have hd2 : ∀ j, idx ≤ j → j < idx + numTipsL (c :: cs) →
        addLens dl (c :: cs) (rangeList idx (c :: cs))
          (sweepL dl (c :: cs) idx d r).2.2.1 j =
          ((tipDepthsL (c :: cs)).getD (j - idx) 0 : ℚ) := by
      intro j h1 h2
      rw [addLens_unit dl (c :: cs) idx _ j hlens, if_pos ⟨h1, h2⟩,
        fd j h1 h2, tipDepthsL_getD (c :: cs) (j - idx) (by omega)]
      push_cast
      ring
    rw [hstep, hnt]
    refine ⟨?_, ?_⟩
    · intro j h1 h2
      dsimp only
      rw [show tipDepths (PTree.node n l (c :: cs)) = tipDepthsL (c :: cs) from rfl]
      exact hd2 j h1 h2
    · intro a b h1 h2 h3
      dsimp only
      rw [show pathEdgesT (PTree.node n l (c :: cs)) (a - idx) (b - idx) =
        pathEdgesF (c :: cs) (a - idx) (b - idx) from rfl]
      by_cases hlen : 1 < (c :: cs).length
      · rw [if_pos hlen, update_result_spec]
        by_cases hsc : sameChild (c :: cs) (a - idx) (b - idx) = true
        · rw [if_neg ?_, fr a b h1 h2 h3 hsc]
          rintro ⟨pr, hpr, hblk⟩
          exact sameChild_no_block (c :: cs) idx a b h1 h2 h3 hsc pr hpr hblk
        · have hsc2 : sameChild (c :: cs) (a - idx) (b - idx) = false := by
            cases hv : sameChild (c :: cs) (a - idx) (b - idx)
            · rfl
            · exact absurd hv hsc
          rw [if_pos (crossPair_block (c :: cs) idx a b h1 h2 h3 hsc2)]
          rw [hd2 a h1 (by omega), hd2 b (by omega) h3,
            pathEdgesF_cross (c :: cs) (a - idx) (b - idx) (by omega) (by omega) hsc2]
          push_cast
          ring
      · rw [if_neg hlen]
        have hcs : cs = [] := by
          cases cs with
          | nil => rfl
          | cons x xs => exact absurd (by rw [List.length_cons, List.length_cons]; omega) hlen
        subst hcs
        have hsc : sameChild [c] (a - idx) (b - idx) = true := by
          rw [show sameChild [c] (a - idx) (b - idx) =
            (if b - idx < numTips c then true
             else if a - idx < numTips c then false
             else sameChild [] (a - idx - numTips c) (b - idx - numTips c)) from rfl]
          rw [numTipsL_cons, show numTipsL [] = 0 from rfl] at h3
          rw [if_pos (by omega)]
        exact fr a b h1 h2 h3 hsc

theorem leavesL_length_of (cs : List PTree)
    (h : ∀ c ∈ cs, (leavesIncl c).length = numTips c) :
    (leavesL cs).length = numTipsL cs := by
  induction cs with
  | nil => rfl
  | cons c cs ih =>
    rw [show leavesL (c :: cs) = leavesIncl c ++ leavesL cs from rfl, List.length_append,
      h c (by simp), numTipsL_cons, ih (fun x hx => h x (by simp [hx]))]

theorem leavesIncl_length : ∀ t : PTree, (leavesIncl t).length = numTips t := by
  refine PTree.inductionOn _ ?_
  intro n l cs ih
  cases cs with
  | nil => rfl
  | cons c cs =>
    rw [show leavesIncl (PTree.node n l (c :: cs)) = leavesL (c :: cs) from rfl,
      show numTips (PTree.node n l (c :: cs)) = numTipsL (c :: cs) from rfl]
    exact leavesL_length_of _ ih

/-- C6: for every tree, `tip_tip_distances()` with no endpoints argument
returns a matrix that is symmetric with zero diagonal, and if every branch
length in the tree equals 1 (no missing lengths), the entry for any two
tips equals the number of edges on the path connecting those two tips. -/
theorem claim6_thm (t : PTree) (dl : ℚ) :
    (∀ a b, (tip_tip_distances t dl).1 a b = (tip_tip_distances t dl).1 b a) ∧
    (∀ a, (tip_tip_distances t dl).1 a a = 0) ∧
    (childLens1 t = true → ∀ p q, p < q → q < (tip_tip_distances t dl).2 →
      (tip_tip_distances t dl).1 p q = (pathEdgesT t p q : ℚ) ∧
      (tip_tip_distances t dl).1 q p = (pathEdgesT t p q : ℚ)) := by
  have hstep : tip_tip_distances t dl =
      (fun a b => (sweep dl t 0 (fun _ => 0) (fun _ _ => 0)).2.2.2 a b +
        (sweep dl t 0 (fun _ => 0) (fun _ _ => 0)).2.2.2 b a,
       (tips t).length) := rfl
  obtain ⟨g1, g2, g3, g4⟩ := sweep_G dl t 0 (fun _ => 0) (fun _ _ => 0)
  rw [hstep]
  refine ⟨fun a b => by dsimp only; ring, fun a => ?_, fun hu p q hpq hq => ?_⟩
  · dsimp only
    rw [g4 a a (by omega)]
    norm_num
  · dsimp only
    have hqn : q < numTips t := by
      rw [show (tips t).length =
        (if t.children.isEmpty then ([] : List PTree) else leavesIncl t).length from rfl] at hq
      by_cases hc : t.children.isEmpty
      · rw [if_pos hc] at hq; simp at hq
      · rw [if_neg hc, leavesIncl_length] at hq; exact hq
    obtain ⟨hd, hr⟩ := sweep_U dl t 0 (fun _ => 0) (fun _ _ => 0) hu
      (fun j _ _ => rfl)
    have hv := hr p q (by omega) hpq (by omega)
    rw [Nat.sub_zero, Nat.sub_zero] at hv
    rw [hv, g4 q p (by omega)]
    constructor
    · norm_num
    · norm_num

/-- The tree `(A:1,(B:1,C:1):1)` with unit branch lengths: tip indices
`A = 0`, `B = 1`, `C = 2`. -/
def tWit6 : PTree :=
  PTree.node none none
    [PTree.node (some ['A']) (some 1) [],
     PTree.node none (some 1)
       [PTree.node (some ['B']) (some 1) [], PTree.node (some ['C']) (some 1) []]]

/-- Witness for C6: on `(A:1,(B:1,C:1):1)` the hypotheses hold and the
matrix entry for tips `A` and `B` is the 3 edges of their connecting path. -/
theorem claim6_witness :
    childLens1 tWit6 = true ∧ (1 : Nat) < (tip_tip_distances tWit6 1).2 ∧
    (tip_tip_distances tWit6 1).1 0 1 = (pathEdgesT tWit6 0 1 : ℚ) ∧
    (tip_tip_distances tWit6 1).1 0 1 = 3 := by
  have h := (claim6_thm tWit6 1).2.2 (by decide) 0 1 (by decide) (by decide)
  refine ⟨by decide, by decide, h.1, ?_⟩
  rw [h.1]
  decide

/-! ## Arena model of the mutable object graph

The mutating operations, `find`'s cache, `lowest_common_ancestor`'s
transient marks and the diameter memoization all live in per-object mutable
state.  They are embedded over an arena: node ids are naturals, and the
arena maps each id to its record of attributes.  `black = none` models the
attribute being absent (`hasattr` false); `mdt` holds the `MaxDistTips`
attribute as a pair of references into a separate heap of `[dist, tip]`
list objects, mirroring the aliasing of those Python lists.  Functions that
walk parent chains or traverse take fuel; the fuel is irrelevant to the
frame properties proved (Python cannot exhaust it on the acyclic graphs it
operates on, and all concrete evaluations get enough). -/

/-- The attributes of one `TreeNode` object. -/
structure NodeRec where
  name : Option (List Char) := none
  length : Option ℚ := none
  parent : Option Nat := none
  children : List Nat := []
  cache : List (List Char × Nat) := []
  mdt : Option (Nat × Nat) := none
  black : Option (List Nat) := none

/-- The object graph: id to record. -/
def Arena : Type := Nat → NodeRec

/-- Update one node's record. -/
def updNode (a : Arena) (i : Nat) (f : NodeRec → NodeRec) : Arena :=
  fun j => if j = i then f (a j) else a j

/-- `invalidate_node_cache` (lines 374-376): `self._node_cache = {}`. -/
def invalidate_node_cache (a : Arena) (i : Nat) : Arena :=
  updNode a i (fun nd => { nd with cache := [] })

/-- `_remove_node(idx)` (lines 90-94): invalidate, pop the child at `idx`,
clear its parent link; returns the removed child's id. -/
def _remove_node (a : Arena) (q : Nat) (idx : Nat) : Arena × Nat :=
  let c := (a q).children.getD idx 0
  let a1 := invalidate_node_cache a q
  let a2 := updNode a1 q (fun nd => { nd with children := nd.children.eraseIdx idx })
  let a3 := updNode a2 c (fun nd => { nd with parent := none })
  (a3, c)

/-- `remove(node)` (lines 96-102): find the first identical child and
`_remove_node` it; otherwise invalidate and report `False`. -/
def removeOp (a : Arena) (q c : Nat) : Arena × Bool :=
  match (a q).children.indexOf? c with
  | some i => ((_remove_node a q i).1, true)
  | none => (invalidate_node_cache a q, false)

/-- `_adopt(node)` (lines 69-75): detach from any prior parent, set the
parent link, invalidate the adopter's cache. -/
def _adopt (a : Arena) (p c : Nat) : Arena :=
  let a1 := match (a c).parent with
    | some q => (removeOp a q c).1
    | none => a
  let a2 := updNode a1 c (fun nd => { nd with parent := some p })
  invalidate_node_cache a2 p

/-- `append(node)` (lines 77-80): adopt, push at the end of `Children`,
invalidate again. -/
def appendOp (a : Arena) (p c : Nat) : Arena :=
  let a1 := _adopt a p c
  let a2 := updNode a1 p (fun nd => { nd with children := nd.children ++ [c] })
  invalidate_node_cache a2 p

/-- `extend(nodes)` (lines 82-84): adopt each (in order), extend `Children`,
invalidate. -/
def extendOp (a : Arena) (p : Nat) (cs : List Nat) : Arena :=
  let a1 := cs.foldl (fun s c => _adopt s p c) a
  let a2 := updNode a1 p (fun nd => { nd with children := nd.children ++ cs })
  invalidate_node_cache a2 p

/-- `pop(index=-1)` (lines 86-88): invalidate, then `_remove_node` at the
(Python-style, possibly negative) index. -/
def popOp (a : Arena) (p : Nat) (idx : Int) : Arena × Nat :=
  let a1 := invalidate_node_cache a p
  let k : Nat := (if idx < 0 then idx + ((a1 p).children.length : Int) else idx).toNat
  _remove_node a1 p k

/-- Preorder id traversal with fuel (`traverse`/`preorder` over the object
graph; fuel only runs out on graphs with broken child links). -/
def arenaPre (a : Arena) : Nat → List Nat → List Nat
  | 0, _ => []
  | _ + 1, [] => []
  | fuel + 1, i :: stk => i :: arenaPre a fuel ((a i).children ++ stk)

/-- `prune()` (lines 110-128): collect the single-child internal nodes over
a pre-mutation snapshot (`traverse(include_self=False)`), then splice each
out (`node.Parent.append(node.Children[0]); node.Parent.remove(node)`),
finally invalidate. -/
def pruneOp (a : Arena) (i : Nat) (fuel : Nat) : Arena :=
  let toRemove := (arenaPre a fuel ((a i).children)).filter
    (fun j => (a j).children.length = 1)
  let a1 := toRemove.foldl (fun s j =>
    match (s j).parent with
    | some p =>
      let s1 := appendOp s p ((s j).children.getD 0 0)
      match (s1 j).parent with
      | some p2 => (removeOp s1 p2 j).1
      | none => s1
    | none => s) a
  invalidate_node_cache a1 i

/-- `create_node_cache` over the arena: the insertion loop over the
preorder ids, mutating `self._node_cache` in place (tree.py lines 378-395;
same loop as `cacheLoop`, here with the cache stored in the arena). -/
def cncArena : List Nat → Arena → Nat → Option TreeErr × Arena
  | [], a, _ => (none, a)
  | j :: rest, a, i =>
    match (a j).name with
    | none => cncArena rest a i
    | some nm =>
      if ((a i).cache.lookup nm).isSome then (some .duplicateNode, a)
      else cncArena rest
        (updNode a i (fun nd => { nd with cache := nd.cache ++ [(nm, j)] })) i

/-- `create_node_cache()` on node `i` of the arena. -/
def arena_create_node_cache (a : Arena) (i : Nat) (fuel : Nat) : Option TreeErr × Arena :=
  if (a i).cache.isEmpty then cncArena (arenaPre a fuel [i]) a i else (none, a)

/-- `find(name)` (lines 397-414) for a string key (the `isinstance` branch
returning an already-resolved node does not apply to string keys): build the
cache if needed, then look up, raising the missing-node error on absence. -/
def arena_find (a : Arena) (i : Nat) (nm : List Char) (fuel : Nat) :
    Except TreeErr Nat × Arena :=
  match arena_create_node_cache a i fuel with
  | (some e, a1) => (.error e, a1)
  | (none, a1) =>
    match (a1 i).cache.lookup nm with
    | none => (.error .missingNode, a1)
    | some j => (.ok j, a1)

/-- Every node's cache was either cleared or left exactly as it was: the
only cache effect any mutating operation has. -/
def cacheClearOrSame (a b : Arena) : Prop :=
  ∀ x, (b x).cache = [] ∨ (b x).cache = (a x).cache

theorem cacheClearOrSame_refl (a : Arena) : cacheClearOrSame a a := fun _ => Or.inr rfl

theorem cacheClearOrSame_trans {a b c : Arena} (h1 : cacheClearOrSame a b)
    (h2 : cacheClearOrSame b c) : cacheClearOrSame a c := by
  intro x
  rcases h2 x with h | h
  · exact Or.inl h
  · rw [h]; exact h1 x

theorem updNode_cache_preserve (a : Arena) (i : Nat) (f : NodeRec → NodeRec)
    (hf : ∀ nd, (f nd).cache = nd.cache) (x : Nat) :
    ((updNode a i f) x).cache = (a x).cache := by
  unfold updNode
  by_cases hx : x = i
  · rw [if_pos hx, hf]
  · rw [if_neg hx]

theorem invalidate_cache_clearOrSame (a : Arena) (i : Nat) :
    cacheClearOrSame a (invalidate_node_cache a i) := by
  intro x
  unfold invalidate_node_cache updNode
  by_cases hx : x = i
  · rw [if_pos hx]; exact Or.inl rfl
  · rw [if_neg hx]; exact Or.inr rfl

theorem invalidate_cache_self (a : Arena) (i : Nat) :
    ((invalidate_node_cache a i) i).cache = [] := by
  unfold invalidate_node_cache updNode
  rw [if_pos rfl]

theorem _remove_node_fst (a : Arena) (q idx : Nat) :
    (_remove_node a q idx).1 =
      updNode (updNode (invalidate_node_cache a q) q
          (fun nd => { nd with children := nd.children.eraseIdx idx }))
        ((a q).children.getD idx 0) (fun nd => { nd with parent := none }) := rfl

theorem _remove_node_clearOrSame (a : Arena) (q idx : Nat) :
    cacheClearOrSame a (_remove_node a q idx).1 := by
  refine cacheClearOrSame_trans (invalidate_cache_clearOrSame a q) ?_
  intro x
  rw [_remove_node_fst]
  rw [updNode_cache_preserve _ ((a q).children.getD idx 0)
      (fun nd => { nd with parent := none }) (fun nd => rfl) x,
    updNode_cache_preserve _ q
      (fun nd => { nd with children := nd.children.eraseIdx idx }) (fun nd => rfl) x]
  exact Or.inr rfl

theorem _remove_node_cache_self (a : Arena) (q idx : Nat) :
    (((_remove_node a q idx).1) q).cache = [] := by
  show ((updNode (updNode (invalidate_node_cache a q) q
    (fun nd => { nd with children := nd.children.eraseIdx idx }))
    ((a q).children.getD idx 0) (fun nd => { nd with parent := none })) q).cache = []
  rw [updNode_cache_preserve _ ((a q).children.getD idx 0)
      (fun nd => { nd with parent := none }) (fun nd => rfl) q,
    updNode_cache_preserve _ q
      (fun nd => { nd with children := nd.children.eraseIdx idx }) (fun nd => rfl) q,
    invalidate_cache_self]

theorem removeOp_clearOrSame (a : Arena) (q c : Nat) :
    cacheClearOrSame a (removeOp a q c).1 := by
  unfold removeOp
  cases (a q).children.indexOf? c with
  | some i => exact _remove_node_clearOrSame a q i
  | none => exact invalidate_cache_clearOrSame a q

theorem removeOp_cache_self (a : Arena) (q c : Nat) :
    (((removeOp a q c).1) q).cache = [] := by
  unfold removeOp
  cases (a q).children.indexOf? c with
  | some i => exact _remove_node_cache_self a q i
  | none => exact invalidate_cache_self a q

theorem _adopt_clearOrSame (a : Arena) (p c : Nat) :
    cacheClearOrSame a (_adopt a p c) := by
  unfold _adopt
  refine cacheClearOrSame_trans (a := a)
    (b := (match (a c).parent with
      | some q => (removeOp a q c).1
      | none => a)) ?_ ?_
  · cases (a c).parent with
    | none => exact cacheClearOrSame_refl a
    | some q => exact removeOp_clearOrSame a q c
  · refine cacheClearOrSame_trans (b := updNode _ c (fun nd => { nd with parent := some p })) ?_
      (invalidate_cache_clearOrSame _ p)
    intro x
    rw [updNode_cache_preserve _ c (fun nd => { nd with parent := some p }) (fun nd => rfl) x]
    exact Or.inr rfl

theorem _adopt_cache_self (a : Arena) (p c : Nat) :
    ((_adopt a p c) p).cache = [] := invalidate_cache_self _ p

theorem appendOp_clearOrSame (a : Arena) (p c : Nat) :
    cacheClearOrSame a (appendOp a p c) := by
  unfold appendOp
  refine cacheClearOrSame_trans (_adopt_clearOrSame a p c) ?_
  refine cacheClearOrSame_trans
    (b := updNode (_adopt a p c) p (fun nd => { nd with children := nd.children ++ [c] })) ?_
    (invalidate_cache_clearOrSame _ p)
  intro x
  rw [updNode_cache_preserve _ p (fun nd => { nd with children := nd.children ++ [c] })
    (fun nd => rfl) x]
  exact Or.inr rfl

theorem appendOp_cache_self (a : Arena) (p c : Nat) :
    ((appendOp a p c) p).cache = [] := invalidate_cache_self _ p

theorem extendOp_clearOrSame (a : Arena) (p : Nat) (cs : List Nat) :
    cacheClearOrSame a (extendOp a p cs) := by
  unfold extendOp
  refine cacheClearOrSame_trans (a := a) (b := cs.foldl (fun s c => _adopt s p c) a) ?_ ?_
  · induction cs generalizing a with
    | nil => exact cacheClearOrSame_refl a
    | cons c cs ih =>
      rw [List.foldl_cons]
      exact cacheClearOrSame_trans (_adopt_clearOrSame a p c) (ih (_adopt a p c))
  · refine cacheClearOrSame_trans
      (b := updNode _ p (fun nd => { nd with children := nd.children ++ cs })) ?_
      (invalidate_cache_clearOrSame _ p)
    intro x
    rw [updNode_cache_preserve _ p (fun nd => { nd with children := nd.children ++ cs })
      (fun nd => rfl) x]
    exact Or.inr rfl

theorem extendOp_cache_self (a : Arena) (p : Nat) (cs : List Nat) :
    ((extendOp a p cs) p).cache = [] := invalidate_cache_self _ p

theorem popOp_clearOrSame (a : Arena) (p : Nat) (idx : Int) :
    cacheClearOrSame a (popOp a p idx).1 := by
  unfold popOp
  exact cacheClearOrSame_trans (invalidate_cache_clearOrSame a p)
    (_remove_node_clearOrSame _ p _)

theorem popOp_cache_self (a : Arena) (p : Nat) (idx : Int) :
    (((popOp a p idx).1) p).cache = [] := _remove_node_cache_self _ p _

theorem pruneOp_clearOrSame (a : Arena) (i fuel : Nat) :
    cacheClearOrSame a (pruneOp a i fuel) := by
  unfold pruneOp
  refine cacheClearOrSame_trans (a := a) ?_ (invalidate_cache_clearOrSame _ i)
  generalize (arenaPre a fuel ((a i).children)).filter
    (fun j => (a j).children.length = 1) = l
  induction l generalizing a with
  | nil => exact cacheClearOrSame_refl a
  | cons j l ih =>
    rw [List.foldl_cons]
    refine cacheClearOrSame_trans (a := a) ?_ (ih _)
    cases (a j).parent with
    | none => exact cacheClearOrSame_refl a
    | some p =>
      show cacheClearOrSame a
        (match ((appendOp a p ((a j).children.getD 0 0)) j).parent with
         | some p2 => (removeOp (appendOp a p ((a j).children.getD 0 0)) p2 j).1
         | none => appendOp a p ((a j).children.getD 0 0))
      cases ((appendOp a p ((a j).children.getD 0 0)) j).parent with
      | none => exact appendOp_clearOrSame a p _
      | some p2 =>
        exact cacheClearOrSame_trans (appendOp_clearOrSame a p _)
          (removeOp_clearOrSame _ p2 j)

theorem pruneOp_cache_self (a : Arena) (i fuel : Nat) :
    ((pruneOp a i fuel) i).cache = [] := invalidate_cache_self _ i

/-- The arena `r(A)` — root 0 named `r` with one child 1 named `A` — plus a
detached node 2 named `B`. -/
def cexArena : Arena := fun j =>
  if j = 0 then { name := some ['r'], children := [1] }
  else if j = 1 then { name := some ['A'], parent := some 0 }
  else if j = 2 then { name := some ['B'] }
  else {}

/-- The arena after building the root's name cache. -/
def cexArena1 : Arena := (arena_create_node_cache cexArena 0 10).2

/-- The arena after `append`ing the detached node `B` under the child `A`
— a structural mutation inside the subtree indexed by the root's cache. -/
def cexArena2 : Arena := appendOp cexArena1 1 2

/-- C2 fails: after building the root's cache and appending `B` under the
descendant `A`, node `B` is in the root's subtree, but the root's cache is
bit-for-bit unchanged (not invalidated) — only the receiver's cache was
cleared — and a subsequent `find` on the root resolves against the stale
cache, raising missing-node for `B` instead of finding it. -/
theorem claim2_cex :
    (cexArena1 0).cache = [(['r'], 0), (['A'], 1)] ∧
    (cexArena2 0).cache = (cexArena1 0).cache ∧
    (cexArena2 1).children = [2] ∧ (cexArena2 2).parent = some 1 ∧
    (cexArena2 1).cache = [] ∧
    (arena_find cexArena2 0 ['B'] 10).1 = .error .missingNode := by
  refine ⟨by decide, by decide, by decide, by decide, by decide, by rfl⟩

/-- Reading another node's record through `updNode`. -/
theorem updNode_other (a : Arena) (i : Nat) (f : NodeRec → NodeRec) (x : Nat)
    (hx : x ≠ i) : (updNode a i f) x = a x := by
  unfold updNode
  rw [if_neg hx]

/-- Reading the updated node's record through `updNode`. -/
theorem updNode_self (a : Arena) (i : Nat) (f : NodeRec → NodeRec) :
    (updNode a i f) i = f (a i) := by
  unfold updNode
  rw [if_pos rfl]

theorem updNode_parent_preserve (a : Arena) (i : Nat) (f : NodeRec → NodeRec)
    (hf : ∀ nd, (f nd).parent = nd.parent) (x : Nat) :
    ((updNode a i f) x).parent = (a x).parent := by
  unfold updNode
  by_cases hx : x = i
  · rw [if_pos hx, hf]
  · rw [if_neg hx]

theorem invalidate_cache_frame (a : Arena) (i x : Nat) (hx : x ≠ i) :
    ((invalidate_node_cache a i) x).cache = (a x).cache := by
  unfold invalidate_node_cache updNode
  rw [if_neg hx]

theorem _remove_node_frame (a : Arena) (q idx x : Nat) (hx : x ≠ q) :
    (((_remove_node a q idx).1) x).cache = (a x).cache := by
  rw [_remove_node_fst,
    updNode_cache_preserve _ ((a q).children.getD idx 0)
      (fun nd => { nd with parent := none }) (fun _ => rfl) x,
    updNode_cache_preserve _ q
      (fun nd => { nd with children := nd.children.eraseIdx idx }) (fun _ => rfl) x,
    invalidate_cache_frame a q x hx]

theorem removeOp_frame (a : Arena) (q c x : Nat) (hx : x ≠ q) :
    (((removeOp a q c).1) x).cache = (a x).cache := by
  unfold removeOp
  cases (a q).children.indexOf? c with
  | some i => exact _remove_node_frame a q i x hx
  | none => exact invalidate_cache_frame a q x hx

theorem _adopt_frame (a : Arena) (p c x : Nat) (hxp : x ≠ p)
    (hxc : (a c).parent ≠ some x) :
    ((_adopt a p c) x).cache = (a x).cache := by
  unfold _adopt
  rw [invalidate_cache_frame _ p x hxp,
    updNode_cache_preserve _ c (fun nd => { nd with parent := some p }) (fun _ => rfl) x]
  cases hp : (a c).parent with
  | none => rfl
  | some q =>
    have hq : x ≠ q := fun h => hxc (by rw [hp, h])
    exact removeOp_frame a q c x hq

theorem appendOp_frame (a : Arena) (p c x : Nat) (hxp : x ≠ p)
    (hxc : (a c).parent ≠ some x) :
    ((appendOp a p c) x).cache = (a x).cache := by
  unfold appendOp
  rw [invalidate_cache_frame _ p x hxp,
    updNode_cache_preserve _ p
      (fun nd => { nd with children := nd.children ++ [c] }) (fun _ => rfl) x]
  exact _adopt_frame a p c x hxp hxc

/-- `_adopt` writes no parent value other than `some p` or `none` (the
removal's clearing), whatever node it writes it to. -/
theorem _adopt_parent (a : Arena) (p c y : Nat) :
    ((_adopt a p c) y).parent = (a y).parent ∨
    ((_adopt a p c) y).parent = some p ∨ ((_adopt a p c) y).parent = none := by
  unfold _adopt
  rw [show ∀ (b : Arena),
      ((invalidate_node_cache b p) y).parent = (b y).parent from fun b =>
    updNode_parent_preserve b p (fun nd => { nd with cache := [] }) (fun _ => rfl) y]
  by_cases hy : y = c
  · subst hy
    rw [updNode_self]
    exact Or.inr (Or.inl rfl)
  · rw [updNode_other _ c (fun nd => { nd with parent := some p }) y hy]
    cases hp : (a c).parent with
    | none => exact Or.inl rfl
    | some q =>
      have hrm : (((removeOp a q c).1) y).parent = (a y).parent ∨
          (((removeOp a q c).1) y).parent = none := by
        unfold removeOp
        cases (a q).children.indexOf? c with
        | none =>
          exact Or.inl (updNode_parent_preserve a q
            (fun nd => { nd with cache := [] }) (fun _ => rfl) y)
        | some i =>
          rw [_remove_node_fst]
          by_cases hy0 : y = (a q).children.getD i 0
          · right
            rw [hy0, updNode_self]
          · rw [updNode_other _ _ (fun nd => { nd with parent := none }) y hy0,
              updNode_parent_preserve _ q
                (fun nd => { nd with children := nd.children.eraseIdx i })
                (fun _ => rfl) y]
            exact Or.inl (updNode_parent_preserve a q
              (fun nd => { nd with cache := [] }) (fun _ => rfl) y)
      rcases hrm with h | h
      · exact Or.inl h
      · exact Or.inr (Or.inr h)

/-- Frame of the `extend` adoption fold: the caches of nodes other than the
receiver `p` and the adopted children's pre-call parents are untouched.
The invariant tracks that the fold writes no parent value other than
`some p`/`none`, so a later adoptee's "former parent" is its original one,
`p`, or absent. -/
theorem adoptFold_frame : ∀ (cs : List Nat) (s a0 : Arena) (p x : Nat), x ≠ p →
    (∀ y, (s y).parent = (a0 y).parent ∨ (s y).parent = some p ∨
      (s y).parent = none) →
    (∀ c1 ∈ cs, (a0 c1).parent ≠ some x) →
    ((cs.foldl (fun s c => _adopt s p c) s) x).cache = (s x).cache
  | [], _, _, _, _, _, _, _ => rfl
  | c1 :: cs, s, a0, p, x, hxp, hinv, hcs => by
    show ((cs.foldl (fun s c => _adopt s p c) (_adopt s p c1)) x).cache = (s x).cache
    have hc1 : (s c1).parent ≠ some x := by
      rcases hinv c1 with h | h | h
      · rw [h]; exact hcs c1 (List.mem_cons_self c1 cs)
      · rw [h]; exact fun he => hxp (Option.some.inj he).symm
      · rw [h]; exact fun he => Option.noConfusion he
    have hinv2 : ∀ y, ((_adopt s p c1) y).parent = (a0 y).parent ∨
        ((_adopt s p c1) y).parent = some p ∨ ((_adopt s p c1) y).parent = none := by
      intro y
      rcases _adopt_parent s p c1 y with h | h | h
      · rw [h]; exact hinv y
      · exact Or.inr (Or.inl h)
      · exact Or.inr (Or.inr h)
    rw [adoptFold_frame cs (_adopt s p c1) a0 p x hxp hinv2
      (fun c2 hm => hcs c2 (List.mem_cons_of_mem c1 hm))]
    exact _adopt_frame s p c1 x hxp hc1

theorem extendOp_frame (a : Arena) (p : Nat) (cs : List Nat) (x : Nat)
    (hxp : x ≠ p) (hcs : ∀ c1 ∈ cs, (a c1).parent ≠ some x) :
    ((extendOp a p cs) x).cache = (a x).cache := by
  unfold extendOp
  rw [invalidate_cache_frame _ p x hxp,
    updNode_cache_preserve _ p
      (fun nd => { nd with children := nd.children ++ cs }) (fun _ => rfl) x]
  exact adoptFold_frame cs a a p x hxp (fun _ => Or.inl rfl) hcs

theorem popOp_frame (a : Arena) (p : Nat) (idx : Int) (x : Nat) (hx : x ≠ p) :
    (((popOp a p idx).1) x).cache = (a x).cache := by
  unfold popOp
  rw [_remove_node_frame _ p _ x hx, invalidate_cache_frame a p x hx]

/-- One splice of `prune`'s loop body (lines 119-126), exactly as folded
inside `pruneOp`. -/
def pruneSplice (s : Arena) (j : Nat) : Arena :=
  match (s j).parent with
  | some p =>
    let s1 := appendOp s p ((s j).children.getD 0 0)
    match (s1 j).parent with
    | some p2 => (removeOp s1 p2 j).1
    | none => s1
  | none => s

/-- The nodes whose caches one splice may invalidate: the spliced node's
parent (receiver of the `append` and of the `remove`) and the promoted
grandchild's pre-splice parent (the spliced node itself, when links are
consistent). -/
def spliceTouched (s : Arena) (j : Nat) : List Nat :=
  match (s j).parent with
  | some p =>
    (p :: (match (s ((s j).children.getD 0 0)).parent with
      | some q => [q]
      | none => [])) ++
    (match ((appendOp s p ((s j).children.getD 0 0)) j).parent with
      | some p2 => [p2]
      | none => [])
  | none => []

/-- All nodes the whole splice fold may invalidate. -/
def spliceFoldTouched : Arena → List Nat → List Nat
  | _, [] => []
  | s, j :: js => spliceTouched s j ++ spliceFoldTouched (pruneSplice s j) js

/-- `prune`'s invalidation targets: the receiver plus the splice fold's. -/
def pruneTouched (a : Arena) (i fuel : Nat) : List Nat :=
  i :: spliceFoldTouched a ((arenaPre a fuel ((a i).children)).filter
    (fun j => (a j).children.length = 1))

theorem pruneOp_splice (a : Arena) (i fuel : Nat) :
    pruneOp a i fuel =
      invalidate_node_cache
        (((arenaPre a fuel ((a i).children)).filter
          (fun j => (a j).children.length = 1)).foldl pruneSplice a) i := rfl

theorem pruneSplice_frame (s : Arena) (j x : Nat) (hx : x ∉ spliceTouched s j) :
    ((pruneSplice s j) x).cache = (s x).cache := by
  unfold pruneSplice
  unfold spliceTouched at hx
  cases hp : (s j).parent with
  | none => rfl
  | some p =>
    rw [hp] at hx
    dsimp only at hx ⊢
    have hxp : x ≠ p := fun he =>
      hx (List.mem_append_left _ (by rw [he]; exact List.mem_cons_self p _))
    have hxc0 : (s ((s j).children.getD 0 0)).parent ≠ some x := fun he =>
      hx (List.mem_append_left _ (List.mem_cons_of_mem p
        (by rw [he]; exact List.mem_singleton_self x)))
    cases hp2 : ((appendOp s p ((s j).children.getD 0 0)) j).parent with
    | none => exact appendOp_frame s p _ x hxp hxc0
    | some p2 =>
      have hxp2 : x ≠ p2 := fun he =>
        hx (List.mem_append_right _
          (by rw [hp2, he]; exact List.mem_singleton_self p2))
      rw [removeOp_frame _ p2 j x hxp2]
      exact appendOp_frame s p _ x hxp hxc0

theorem spliceFold_frame : ∀ (js : List Nat) (s : Arena) (x : Nat),
    x ∉ spliceFoldTouched s js →
    ((js.foldl pruneSplice s) x).cache = (s x).cache
  | [], _, _, _ => rfl
  | j :: js, s, x, hx => by
    show ((js.foldl pruneSplice (pruneSplice s j)) x).cache = (s x).cache
    have h1 : x ∉ spliceTouched s j := fun h => hx (List.mem_append_left _ h)
    have h2 : x ∉ spliceFoldTouched (pruneSplice s j) js := fun h =>
      hx (List.mem_append_right _ h)
    rw [spliceFold_frame js (pruneSplice s j) x h2]
    exact pruneSplice_frame s j x h1

theorem pruneOp_frame (a : Arena) (i fuel x : Nat)
    (hx : x ∉ pruneTouched a i fuel) :
    ((pruneOp a i fuel) x).cache = (a x).cache := by
  have hxi : x ≠ i := fun h => hx (h ▸ List.mem_cons_self i _)
  have hxf : x ∉ spliceFoldTouched a ((arenaPre a fuel ((a i).children)).filter
      (fun j => (a j).children.length = 1)) :=
    fun h => hx (List.mem_cons_of_mem i h)
  rw [pruneOp_splice, invalidate_cache_frame _ i x hxi]
  exact spliceFold_frame _ a x hxf

/-- A `find` on a node whose cache is non-empty neither rebuilds nor
modifies anything: it resolves against that cache as it stands. -/
theorem find_stale (b : Arena) (x : Nat) (nm : List Char) (fuel : Nat)
    (hne : (b x).cache ≠ []) :
    arena_find b x nm fuel =
      (match (b x).cache.lookup nm with
       | none => Except.error TreeErr.missingNode
       | some j => Except.ok j, b) := by
  unfold arena_find arena_create_node_cache
  have hie : (b x).cache.isEmpty = false := by
    cases hc : (b x).cache with
    | nil => exact absurd hc hne
    | cons hd tl => rfl
  simp only [hie, Bool.false_eq_true, if_false]
  cases hl : (b x).cache.lookup nm with
  | none => rfl
  | some j => rfl

theorem find_stale_general (b a : Arena) (x : Nat) (nm : List Char)
    (fuel : Nat) (hc : (b x).cache = (a x).cache) (hne : (a x).cache ≠ []) :
    arena_find b x nm fuel =
      (match (a x).cache.lookup nm with
       | none => Except.error TreeErr.missingNode
       | some j => Except.ok j, b) := by
  rw [← hc] at hne ⊢
  exact find_stale b x nm fuel hne

/-- C2 (amended): each mutating operation clears the `_node_cache` of the
node it is invoked on, and the only other caches it can clear are those of
the directly affected former parents (`append`/`extend` via adoption;
`prune` via its splices' receivers and former parents, the `pruneTouched`
list); every node outside that set — in particular any ancestor of the
receiver — keeps its cache bit-for-bit (`pop` and `remove` touch no cache
but the receiver's at all); and a subsequent `find` on any node whose cache
is unchanged and was built before the mutation resolves against that stale
pre-mutation cache without rebuilding. -/
theorem claim2_thm :
    (∀ (a : Arena) (p c : Nat), ((appendOp a p c) p).cache = [] ∧
      ∀ x, x ≠ p → (a c).parent ≠ some x →
        ((appendOp a p c) x).cache = (a x).cache) ∧
    (∀ (a : Arena) (p : Nat) (cs : List Nat), ((extendOp a p cs) p).cache = [] ∧
      ∀ x, x ≠ p → (∀ c1 ∈ cs, (a c1).parent ≠ some x) →
        ((extendOp a p cs) x).cache = (a x).cache) ∧
    (∀ (a : Arena) (p : Nat) (idx : Int), (((popOp a p idx).1) p).cache = [] ∧
      ∀ x, x ≠ p → (((popOp a p idx).1) x).cache = (a x).cache) ∧
    (∀ (a : Arena) (q c : Nat), (((removeOp a q c).1) q).cache = [] ∧
      ∀ x, x ≠ q → (((removeOp a q c).1) x).cache = (a x).cache) ∧
    (∀ (a : Arena) (i fuel : Nat), ((pruneOp a i fuel) i).cache = [] ∧
      ∀ x, x ∉ pruneTouched a i fuel →
        ((pruneOp a i fuel) x).cache = (a x).cache) ∧
    (∀ (b a : Arena) (x : Nat) (nm : List Char) (fuel : Nat),
      (b x).cache = (a x).cache → (a x).cache ≠ [] →
      arena_find b x nm fuel =
        (match (a x).cache.lookup nm with
         | none => Except.error TreeErr.missingNode
         | some j => Except.ok j, b)) :=
  ⟨fun a p c => ⟨appendOp_cache_self a p c,
      fun x hxp hxc => appendOp_frame a p c x hxp hxc⟩,
   fun a p cs => ⟨extendOp_cache_self a p cs,
      fun x hxp hcs => extendOp_frame a p cs x hxp hcs⟩,
   fun a p idx => ⟨popOp_cache_self a p idx,
      fun x hxp => popOp_frame a p idx x hxp⟩,
   fun a q c => ⟨removeOp_cache_self a q c,
      fun x hx => removeOp_frame a q c x hx⟩,
   fun a i fuel => ⟨pruneOp_cache_self a i fuel,
      fun x hx => pruneOp_frame a i fuel x hx⟩,
   fun b a x nm fuel hc hne => find_stale_general b a x nm fuel hc hne⟩

/-- The frame and stale-find parts of C2's amended theorem exercised on the
counterexample tree: appending `B` under the child `A` leaves the root's
pre-built cache exactly as it was, and the subsequent `find` on the root
resolves against that stale cache (missing-node for `B`, no rebuild). -/
theorem claim2_witness :
    ((appendOp cexArena1 1 2) 0).cache = (cexArena1 0).cache ∧
    (cexArena1 0).cache ≠ [] ∧
    arena_find (appendOp cexArena1 1 2) 0 ['B'] 10 =
      (Except.error TreeErr.missingNode, appendOp cexArena1 1 2) := by
  have h1 : ((appendOp cexArena1 1 2) 0).cache = (cexArena1 0).cache :=
    (claim2_thm.1 cexArena1 1 2).2 0 (by decide) (by decide)
  have hne : (cexArena1 0).cache ≠ [] := by decide
  have h2 := claim2_thm.2.2.2.2.2 (appendOp cexArena1 1 2) cexArena1 0 ['B'] 10
    h1 hne
  refine ⟨h1, hne, ?_⟩
  rw [h2]
  rfl

/-! ## Diameter memoization (tree.py lines 648-692)

`MaxDistTips` stores two Python lists `[dist, tip]`; parents alias their
children's list objects and mutate them in place (`tip_a[0] += ...`), so the
lists live in a separate heap and nodes hold references (`mdt`).  Where the
original compares `[dist, tip]` lists whose dists tie, Python 2 falls back
to comparing the node objects themselves (an address-dependent order);
`mdChildMax` models `max(c.MaxDistTips)` as picking the second list exactly
when its dist is strictly larger, which agrees with the original whenever
the two dists differ or the two lists are equal; `argsortQ` models
`numpy.argsort` as a stable sort, which agrees on distinct keys.  The
concrete evaluations below avoid the remaining tie cases, except the
all-zero `dists` of fresh tips, where both models yield the identity
permutation like numpy's. -/

/-- The heap of `[dist, tip]` list objects referenced by `MaxDistTips`. -/
structure MDHeap where
  val : Nat → ℚ × Option Nat
  next : Nat

/-- The empty heap. -/
def mdEmptyHeap : MDHeap := { val := fun _ => (0, none), next := 0 }

/-- `tip_a[0] += x` on the heap entry `ref`. -/
def heapAdd (h : MDHeap) (ref : Nat) (x : ℚ) : MDHeap :=
  { h with val := fun k => if k = ref then ((h.val k).1 + x, (h.val k).2) else h.val k }

/-- `max(c.MaxDistTips)`: the reference of the child's larger list
(AttributeError if the memo is absent). -/
def mdChildMax (a : Arena) (h : MDHeap) (c : Nat) : Except TreeErr Nat :=
  match (a c).mdt with
  | none => .error .attrMissing
  | some (r1, r2) => .ok (if (h.val r1).1 < (h.val r2).1 then r2 else r1)

/-- `max(c.MaxDistTips)` for every child. -/
def mdMaxRefs (a : Arena) (h : MDHeap) : List Nat → Except TreeErr (List Nat)
  | [] => .ok []
  | c :: cs =>
    match mdChildMax a h c with
    | .error e => .error e
    | .ok r =>
      match mdMaxRefs a h cs with
      | .error e => .error e
      | .ok rs => .ok (r :: rs)

/-- Stable insertion step for `argsortQ`. -/
def insertIdxQ (i : Nat) (x : ℚ) : List (Nat × ℚ) → List (Nat × ℚ)
  | [] => [(i, x)]
  | (j, y) :: rest =>
    if x < y then (i, x) :: (j, y) :: rest else (j, y) :: insertIdxQ i x rest

/-- `numpy.argsort` modelled as a stable ascending sort of the indices. -/
def argsortQ (l : List ℚ) : List Nat :=
  (l.enum.foldl (fun acc p => insertIdxQ p.1 p.2 acc) []).map Prod.fst

/-- One node of the `_set_max_distance` postorder loop. -/
def smdStep (st : Except TreeErr (Arena × MDHeap)) (n : Nat) :
    Except TreeErr (Arena × MDHeap) :=
  match st with
  | .error e => .error e
  | .ok (a, h) =>
    match (a n).children with
    | [] =>
      let r1 := h.next
      let h1 : MDHeap :=
        { val := fun k =>
            if k = r1 then (0, some n)
            else if k = r1 + 1 then (0, some n)
            else h.val k,
          next := h.next + 2 }
      .ok (updNode a n (fun nd => { nd with mdt := some (r1, r1 + 1) }), h1)
    | [c] =>
      match (a c).mdt with
      | none => .error .attrMissing
      | some (r1, r2) =>
        let x := (a c).length.getD 0
        .ok (updNode a n (fun nd => { nd with mdt := some (r1, r2) }),
          heapAdd (heapAdd h r1 x) r2 x)
    | c1 :: c2 :: rest =>
      match mdMaxRefs a h (c1 :: c2 :: rest) with
      | .error e => .error e
      | .ok refs =>
        let dists := refs.map (fun r => (h.val r).1)
        let best := (argsortQ dists).drop (dists.length - 2)
        let i1 := best.getD 0 0
        let i2 := best.getD 1 0
        let ra := refs.getD i1 0
        let ca := (c1 :: c2 :: rest).getD i1 0
        let rb := refs.getD i2 0
        let cb := (c1 :: c2 :: rest).getD i2 0
        .ok (updNode a n (fun nd => { nd with mdt := some (ra, rb) }),
          heapAdd (heapAdd h ra ((a ca).length.getD 0)) rb ((a cb).length.getD 0))

/-- Postorder id traversal with fuel. -/
def arenaPost (a : Arena) : Nat → Nat → List Nat
  | 0, _ => []
  | fuel + 1, i => ((a i).children.map (arenaPost a fuel)).flatten ++ [i]

/-- `_set_max_distance()` (lines 649-673). -/
def _set_max_distance (a : Arena) (h : MDHeap) (i fuel : Nat) :
    Except TreeErr (Arena × MDHeap) :=
  (arenaPost a fuel i).foldl smdStep (.ok (a, h))

/-- The `for n in self.non_tips(include_self=True)` maximum loop of
`get_max_distance` (strict `>`, initial `0.0` / `[None, None]`). -/
def gmdLoop (a : Arena) (h : MDHeap) : List Nat → (ℚ × (Option Nat × Option Nat)) →
    Except TreeErr (ℚ × (Option Nat × Option Nat))
  | [], best => .ok best
  | n :: rest, best =>
    match (a n).mdt with
    | none => .error .attrMissing
    | some (r1, r2) =>
      let dist := (h.val r1).1 + (h.val r2).1
      if best.1 < dist then gmdLoop a h rest (dist, ((h.val r1).2, (h.val r2).2))
      else gmdLoop a h rest best

/-- `get_max_distance()` (lines 675-692): recompute the memos only when
`self` lacks one (`hasattr` check on `self` alone), then take the maximum
over the non-tips' memoized pairs. -/
def get_max_distance (a : Arena) (h : MDHeap) (i fuel : Nat) :
    Except TreeErr ((ℚ × (Option Nat × Option Nat)) × Arena × MDHeap) :=
  match (if (a i).mdt.isNone then _set_max_distance a h i fuel else .ok (a, h)) with
  | .error e => .error e
  | .ok (a1, h1) =>
    match gmdLoop a1 h1
      ((arenaPre a1 fuel [i]).filter (fun j => ¬(a1 j).children.isEmpty))
      (0, (none, none)) with
    | .error e => .error e
    | .ok best => .ok (best, a1, h1)

/-- The `MaxDistTips` references of every node are untouched. -/
def mdtSame (a b : Arena) : Prop := ∀ x, (b x).mdt = (a x).mdt

theorem mdtSame_refl (a : Arena) : mdtSame a a := fun _ => rfl

theorem mdtSame_trans {a b c : Arena} (h1 : mdtSame a b) (h2 : mdtSame b c) :
    mdtSame a c := fun x => (h2 x).trans (h1 x)

theorem updNode_mdt_preserve (a : Arena) (i : Nat) (f : NodeRec → NodeRec)
    (hf : ∀ nd, (f nd).mdt = nd.mdt) : mdtSame a (updNode a i f) := by
  intro x
  unfold updNode
  by_cases hx : x = i
  · rw [if_pos hx, hf]
  · rw [if_neg hx]

theorem invalidate_mdtSame (a : Arena) (i : Nat) :
    mdtSame a (invalidate_node_cache a i) :=
  updNode_mdt_preserve a i _ (fun _ => rfl)

theorem _remove_node_mdtSame (a : Arena) (q idx : Nat) :
    mdtSame a (_remove_node a q idx).1 := by
  rw [_remove_node_fst]
  exact mdtSame_trans (invalidate_mdtSame a q)
    (mdtSame_trans
      (updNode_mdt_preserve _ q
        (fun nd => { nd with children := nd.children.eraseIdx idx }) (fun _ => rfl))
      (updNode_mdt_preserve _ ((a q).children.getD idx 0)
        (fun nd => { nd with parent := none }) (fun _ => rfl)))

theorem removeOp_mdtSame (a : Arena) (q c : Nat) : mdtSame a (removeOp a q c).1 := by
  unfold removeOp
  cases (a q).children.indexOf? c with
  | some i => exact _remove_node_mdtSame a q i
  | none => exact invalidate_mdtSame a q

theorem _adopt_mdtSame (a : Arena) (p c : Nat) : mdtSame a (_adopt a p c) := by
  unfold _adopt
  refine mdtSame_trans (a := a)
    (b := (match (a c).parent with
      | some q => (removeOp a q c).1
      | none => a)) ?_ ?_
  · cases (a c).parent with
    | none => exact mdtSame_refl a
    | some q => exact removeOp_mdtSame a q c
  · exact mdtSame_trans
      (updNode_mdt_preserve _ c (fun nd => { nd with parent := some p }) (fun _ => rfl))
      (invalidate_mdtSame _ p)

theorem appendOp_mdtSame (a : Arena) (p c : Nat) : mdtSame a (appendOp a p c) := by
  unfold appendOp
  exact mdtSame_trans (_adopt_mdtSame a p c)
    (mdtSame_trans
      (updNode_mdt_preserve _ p (fun nd => { nd with children := nd.children ++ [c] })
        (fun _ => rfl))
      (invalidate_mdtSame _ p))

theorem extendOp_mdtSame (a : Arena) (p : Nat) (cs : List Nat) :
    mdtSame a (extendOp a p cs) := by
  unfold extendOp
  refine mdtSame_trans (a := a) (b := cs.foldl (fun s c => _adopt s p c) a) ?_
    (mdtSame_trans
      (updNode_mdt_preserve _ p (fun nd => { nd with children := nd.children ++ cs })
        (fun _ => rfl))
      (invalidate_mdtSame _ p))
  induction cs generalizing a with
  | nil => exact mdtSame_refl a
  | cons c cs ih =>
    rw [List.foldl_cons]
    exact mdtSame_trans (_adopt_mdtSame a p c) (ih (_adopt a p c))

theorem popOp_mdtSame (a : Arena) (p : Nat) (idx : Int) : mdtSame a (popOp a p idx).1 := by
  unfold popOp
  exact mdtSame_trans (invalidate_mdtSame a p) (_remove_node_mdtSame _ p _)

theorem pruneOp_mdtSame (a : Arena) (i fuel : Nat) : mdtSame a (pruneOp a i fuel) := by
  unfold pruneOp
  refine mdtSame_trans (a := a) ?_ (invalidate_mdtSame _ i)
  generalize (arenaPre a fuel ((a i).children)).filter
    (fun j => (a j).children.length = 1) = l
  induction l generalizing a with
  | nil => exact mdtSame_refl a
  | cons j l ih =>
    rw [List.foldl_cons]
    refine mdtSame_trans (a := a) ?_ (ih _)
    cases (a j).parent with
    | none => exact mdtSame_refl a
    | some p =>
      show mdtSame a
        (match ((appendOp a p ((a j).children.getD 0 0)) j).parent with
         | some p2 => (removeOp (appendOp a p ((a j).children.getD 0 0)) p2 j).1
         | none => appendOp a p ((a j).children.getD 0 0))
      cases ((appendOp a p ((a j).children.getD 0 0)) j).parent with
      | none => exact appendOp_mdtSame a p _
      | some p2 =>
        exact mdtSame_trans (appendOp_mdtSame a p _) (removeOp_mdtSame _ p2 j)

/-- C3 (amended): no structural edit touches the diameter-memoization
fields — every mutating operation leaves every node's `MaxDistTips`
reference exactly as it was — and `get_max_distance` only recomputes when
the node it is called on lacks a memo: with a memo present it answers from
the existing (possibly stale) memos without touching the arena or heap. -/
theorem claim3_thm (a : Arena) (h : MDHeap) (p c i : Nat) (cs : List Nat) (idx : Int)
    (fuel : Nat) :
    (mdtSame a (appendOp a p c) ∧ mdtSame a (extendOp a p cs) ∧
     mdtSame a (popOp a p idx).1 ∧ mdtSame a (removeOp a p c).1 ∧
     mdtSame a (pruneOp a i fuel)) ∧
    ((a i).mdt.isSome → ∀ res, get_max_distance a h i fuel = .ok res →
      res.2.1 = a ∧ res.2.2 = h) := by
  refine ⟨⟨appendOp_mdtSame a p c, extendOp_mdtSame a p cs, popOp_mdtSame a p idx,
    removeOp_mdtSame a p c, pruneOp_mdtSame a i fuel⟩, fun hm res hres => ?_⟩
  have hnone : (a i).mdt.isNone = false := by
    cases hv : (a i).mdt
    · rw [hv] at hm; cases hm
    · rfl
  unfold get_max_distance at hres
  rw [hnone] at hres
  simp only [Bool.false_eq_true, if_false] at hres
  split at hres
  · cases hres
  · rw [Except.ok.injEq] at hres
    rw [← hres]
    exact ⟨rfl, rfl⟩

/-- Root 0 with tip children `A` (id 1, length 1) and `B` (id 2, length 2),
plus a detached tip `C` (id 3, length 100). -/
def cex3Arena : Arena := fun j =>
  if j = 0 then { children := [1, 2] }
  else if j = 1 then { name := some ['A'], parent := some 0, length := some 1 }
  else if j = 2 then { name := some ['B'], parent := some 0, length := some 2 }
  else if j = 3 then { name := some ['C'], length := some 100 }
  else {}

/-- Value part of a `get_max_distance` outcome. -/
def gmdVal (e : Except TreeErr ((ℚ × (Option Nat × Option Nat)) × Arena × MDHeap)) :
    Option (ℚ × (Option Nat × Option Nat)) :=
  match e with
  | .ok r => some r.1
  | .error _ => none

/-- The arena after the memo-building first `get_max_distance` call. -/
def cex3Arena1 : Arena :=
  match get_max_distance cex3Arena mdEmptyHeap 0 10 with
  | .ok r => r.2.1
  | .error _ => cex3Arena

/-- The heap after the memo-building first `get_max_distance` call. -/
def cex3Heap1 : MDHeap :=
  match get_max_distance cex3Arena mdEmptyHeap 0 10 with
  | .ok r => r.2.2
  | .error _ => mdEmptyHeap

/-- The arena after appending the far tip `C` under the root. -/
def cex3Arena2 : Arena := appendOp cex3Arena1 0 3

/-- The same mutated tree with no memos anywhere (what a recomputation
actually sees), for reading off the true diameter. -/
def cex3Fresh : Arena := fun j => { cex3Arena2 j with mdt := none }

/-- C3 fails: `get_max_distance` on the fresh tree returns the diameter 3
(A-B) and memoizes; appending the length-100 tip `C` under the root leaves
the root's memo in place (no invalidation), so the next `get_max_distance`
still returns the stale 3 even though the mutated tree (root children
`[1, 2, 3]`, `C` attached with length 100) has tip-tip distance 102 (B-C),
as recomputation on the memo-free copy of the same tree shows. -/
theorem claim3_cex :
    gmdVal (get_max_distance cex3Arena mdEmptyHeap 0 10) = some (3, (some 1, some 2)) ∧
    (cex3Arena2 0).mdt = (cex3Arena1 0).mdt ∧ (cex3Arena1 0).mdt.isSome = true ∧
    (cex3Arena2 0).children = [1, 2, 3] ∧ (cex3Arena2 3).parent = some 0 ∧
    (cex3Arena2 3).length = some 100 ∧
    gmdVal (get_max_distance cex3Arena2 cex3Heap1 0 10) = some (3, (some 1, some 2)) ∧
    gmdVal (get_max_distance cex3Fresh mdEmptyHeap 0 10) = some (102, (some 2, some 3)) ∧
    (3 : ℚ) ≠ 102 := by
  refine ⟨?_, ?_, ?_, ?_, ?_, ?_, ?_, ?_, by norm_num⟩
  · norm_num [gmdVal, get_max_distance, _set_max_distance, arenaPost, arenaPre, smdStep,
      mdMaxRefs, mdChildMax, argsortQ, insertIdxQ, heapAdd, gmdLoop, updNode,
      cex3Arena, mdEmptyHeap, List.enum]
  · norm_num [cex3Arena2, cex3Arena1, appendOp, _adopt, invalidate_node_cache, removeOp,
      _remove_node, updNode, get_max_distance, _set_max_distance, arenaPost, arenaPre,
      smdStep, mdMaxRefs, mdChildMax, argsortQ, insertIdxQ, heapAdd, gmdLoop,
      cex3Arena, mdEmptyHeap, List.enum]
  · norm_num [cex3Arena1, get_max_distance, _set_max_distance, arenaPost, arenaPre,
      smdStep, mdMaxRefs, mdChildMax, argsortQ, insertIdxQ, heapAdd, gmdLoop, updNode,
      cex3Arena, mdEmptyHeap, List.enum]
  · norm_num [cex3Arena2, cex3Arena1, appendOp, _adopt, invalidate_node_cache, removeOp,
      _remove_node, updNode, get_max_distance, _set_max_distance, arenaPost, arenaPre,
      smdStep, mdMaxRefs, mdChildMax, argsortQ, insertIdxQ, heapAdd, gmdLoop,
      cex3Arena, mdEmptyHeap, List.enum]
  · norm_num [cex3Arena2, cex3Arena1, appendOp, _adopt, invalidate_node_cache, removeOp,
      _remove_node, updNode, get_max_distance, _set_max_distance, arenaPost, arenaPre,
      smdStep, mdMaxRefs, mdChildMax, argsortQ, insertIdxQ, heapAdd, gmdLoop,
      cex3Arena, mdEmptyHeap, List.enum]
  · norm_num [cex3Arena2, cex3Arena1, appendOp, _adopt, invalidate_node_cache, removeOp,
      _remove_node, updNode, get_max_distance, _set_max_distance, arenaPost, arenaPre,
      smdStep, mdMaxRefs, mdChildMax, argsortQ, insertIdxQ, heapAdd, gmdLoop,
      cex3Arena, mdEmptyHeap, List.enum]
  · norm_num [gmdVal, cex3Arena2, cex3Arena1, cex3Heap1, appendOp, _adopt,
      invalidate_node_cache, removeOp, _remove_node, updNode, get_max_distance,
      _set_max_distance, arenaPost, arenaPre, smdStep, mdMaxRefs, mdChildMax, argsortQ,
      insertIdxQ, heapAdd, gmdLoop, cex3Arena, mdEmptyHeap, List.enum]
  · norm_num [gmdVal, cex3Fresh, cex3Arena2, cex3Arena1, appendOp, _adopt,
      invalidate_node_cache, removeOp, _remove_node, updNode, get_max_distance,
      _set_max_distance, arenaPost, arenaPre, smdStep, mdMaxRefs, mdChildMax, argsortQ,
      insertIdxQ, heapAdd, gmdLoop, cex3Arena, mdEmptyHeap, List.enum]

/-- Witness for C3's memo-present branch: on the memoized arena the root
has a `MaxDistTips` memo and `get_max_distance` returns with the arena and
heap untouched. -/
theorem claim3_witness :
    (cex3Arena1 0).mdt.isSome = true ∧
    get_max_distance cex3Arena1 cex3Heap1 0 10 =
      .ok ((3, (some 1, some 2)), cex3Arena1, cex3Heap1) ∧
    cex3Arena1 = cex3Arena1 ∧ cex3Heap1 = cex3Heap1 := by
  have hsome : (cex3Arena1 0).mdt.isSome = true := by
    norm_num [cex3Arena1, get_max_distance, _set_max_distance, arenaPost, arenaPre,
      smdStep, mdMaxRefs, mdChildMax, argsortQ, insertIdxQ, heapAdd, gmdLoop, updNode,
      cex3Arena, mdEmptyHeap, List.enum]
  have heval : get_max_distance cex3Arena1 cex3Heap1 0 10 =
      .ok ((3, (some 1, some 2)), cex3Arena1, cex3Heap1) := by
    norm_num [cex3Arena1, cex3Heap1, get_max_distance, _set_max_distance, arenaPost,
      arenaPre, smdStep, mdMaxRefs, mdChildMax, argsortQ, insertIdxQ, heapAdd, gmdLoop,
      updNode, cex3Arena, mdEmptyHeap, List.enum]
  have happ := (claim3_thm cex3Arena1 cex3Heap1 0 0 0 [] 0 10).2 hsome _ heval
  exact ⟨hsome, heval, happ.1, happ.2⟩

/-! ## `lowest_common_ancestor` (tree.py lines 454-494)

The transient `black` marks are per-object attributes (`setattr`/`delattr`);
`black = none` models the attribute being absent.  The upward walks and the
descent loop take fuel; exhaustion is modelled as an error (unreachable on
the acyclic graphs Python runs on). -/

/-- `tips = [self.find(name) for name in tipnames]`: sequential resolution,
first error propagates (with the cache-building side effect kept). -/
def findAll : Arena → Nat → Nat → List (List Char) → Except TreeErr (List Nat) × Arena
  | a, _, _, [] => (.ok [], a)
  | a, i, fuel, nm :: rest =>
    match arena_find a i nm fuel with
    | (.error e, a1) => (.error e, a1)
    | (.ok t, a1) =>
      match findAll a1 i fuel rest with
      | (.error e, a2) => (.error e, a2)
      | (.ok ts, a2) => (.ok (t :: ts), a2)

/-- The per-target upward walk (lines 470-482): `prev = t; curr = t.Parent;
while curr and not hasattr(curr, 'black'): curr.black = [prev]; record for
scrubbing; climb` - then `if curr: curr.black.append(prev)`. -/
def walkUp : Nat → Arena → Nat → Option Nat → List Nat → Arena × List Nat
  | _, a, _, none, scrub => (a, scrub)
  | 0, a, _, some _, scrub => (a, scrub)
  | fuel + 1, a, prev, some c, scrub =>
    match (a c).black with
    | none =>
      walkUp fuel (updNode a c (fun nd => { nd with black := some [prev] })) c
        ((a c).parent) (scrub ++ [c])
    | some l => (updNode a c (fun nd => { nd with black := some (l ++ [prev]) }), scrub)

/-- `for t in tips:` — run the upward walk for every resolved target. -/
def markAll (fuel : Nat) : Arena → List Nat → List Nat → Arena × List Nat
  | a, [], scrub => (a, scrub)
  | a, t :: ts, scrub =>
    let r := walkUp fuel a t ((a t).parent) scrub
    markAll fuel r.1 ts r.2

/-- The descent (lines 484-486): `curr = self; while len(curr.black) == 1:
curr = curr.black[0]`; reading `black` where it is absent raises
`AttributeError`. -/
def lcaDescend : Nat → Arena → Nat → Except TreeErr Nat
  | 0, _, _ => .error .attrMissing
  | fuel + 1, a, c =>
    match (a c).black with
    | none => .error .attrMissing
    | some l => if l.length = 1 then lcaDescend fuel a (l.getD 0 0) else .ok c

/-- The cleanup (lines 489-490): `for n in nodes_to_scrub: delattr(n,
'black')`. -/
def scrubAll (a : Arena) (l : List Nat) : Arena :=
  l.foldl (fun s n1 => updNode s n1 (fun nd => { nd with black := none })) a

/-- `lowest_common_ancestor(tipnames)` (lines 454-492), for string tip
identifiers.  Note the scrub only runs when the descent succeeds; an
`AttributeError` in the descent propagates with the marks still in place. -/
def lowest_common_ancestor (a : Arena) (i : Nat) (tipnames : List (List Char))
    (fuel : Nat) : Except TreeErr (Option Nat) × Arena :=
  if tipnames.length = 1 then
    match arena_find a i (tipnames.getD 0 []) fuel with
    | (.ok t, a1) => (.ok (some t), a1)
    | (.error e, a1) => (.error e, a1)
  else
    match findAll a i fuel tipnames with
    | (.error e, a1) => (.error e, a1)
    | (.ok tips, a1) =>
      if tips.length = 0 then (.ok none, a1)
      else
        let m := markAll fuel a1 tips []
        match lcaDescend fuel m.1 i with
        | .error e => (.error e, m.1)
        | .ok c => (.ok (some c), scrubAll m.1 m.2)

/-- C10: called with an empty list of tip identifiers,
`lowest_common_ancestor` returns the no-node sentinel (`None`) rather than
raising, and the tree (the whole arena state) is left unmodified. -/
theorem claim10_thm (a : Arena) (i fuel : Nat) :
    lowest_common_ancestor a i [] fuel = (.ok none, a) := rfl

/-- Two arena states agree on every node's structural fields (name, branch
length, parent link, child list). -/
def structSame (a b : Arena) : Prop :=
  ∀ x, (b x).name = (a x).name ∧ (b x).length = (a x).length ∧
    (b x).parent = (a x).parent ∧ (b x).children = (a x).children

/-- Two arena states agree on everything except possibly node caches: the
frame of the cache-building `find` phase. -/
def cacheOnly (a b : Arena) : Prop :=
  ∀ x, (b x).name = (a x).name ∧ (b x).length = (a x).length ∧
    (b x).parent = (a x).parent ∧ (b x).children = (a x).children ∧
    (b x).black = (a x).black

theorem structSame_refl (a : Arena) : structSame a a :=
  fun _ => ⟨rfl, rfl, rfl, rfl⟩

theorem structSame_trans {a b c : Arena} (h1 : structSame a b)
    (h2 : structSame b c) : structSame a c := by
  intro x
  obtain ⟨e1, e2, e3, e4⟩ := h1 x
  obtain ⟨f1, f2, f3, f4⟩ := h2 x
  exact ⟨f1.trans e1, f2.trans e2, f3.trans e3, f4.trans e4⟩

theorem cacheOnly_refl (a : Arena) : cacheOnly a a :=
  fun _ => ⟨rfl, rfl, rfl, rfl, rfl⟩

theorem cacheOnly_trans {a b c : Arena} (h1 : cacheOnly a b)
    (h2 : cacheOnly b c) : cacheOnly a c := by
  intro x
  obtain ⟨e1, e2, e3, e4, e5⟩ := h1 x
  obtain ⟨f1, f2, f3, f4, f5⟩ := h2 x
  exact ⟨f1.trans e1, f2.trans e2, f3.trans e3, f4.trans e4, f5.trans e5⟩

theorem cacheOnly_structSame {a b : Arena} (h : cacheOnly a b) :
    structSame a b := by
  intro x
  obtain ⟨e1, e2, e3, e4, _⟩ := h x
  exact ⟨e1, e2, e3, e4⟩

theorem updNode_structSame (a : Arena) (i : Nat) (f : NodeRec → NodeRec)
    (hf : ∀ nd, (f nd).name = nd.name ∧ (f nd).length = nd.length ∧
      (f nd).parent = nd.parent ∧ (f nd).children = nd.children) :
    structSame a (updNode a i f) := by
  intro x
  unfold updNode
  by_cases hx : x = i
  · rw [if_pos hx]; exact hf (a x)
  · rw [if_neg hx]; exact ⟨rfl, rfl, rfl, rfl⟩

theorem updNode_cacheOnly (a : Arena) (i : Nat) (f : NodeRec → NodeRec)
    (hf : ∀ nd, (f nd).name = nd.name ∧ (f nd).length = nd.length ∧
      (f nd).parent = nd.parent ∧ (f nd).children = nd.children ∧
      (f nd).black = nd.black) :
    cacheOnly a (updNode a i f) := by
  intro x
  unfold updNode
  by_cases hx : x = i
  · rw [if_pos hx]; exact hf (a x)
  · rw [if_neg hx]; exact ⟨rfl, rfl, rfl, rfl, rfl⟩

theorem cncArena_cacheOnly : ∀ (ids : List Nat) (a : Arena) (i : Nat),
    cacheOnly a (cncArena ids a i).2
  | [], a, _ => cacheOnly_refl a
  | j :: rest, a, i => by
    unfold cncArena
    cases hn : (a j).name with
    | none => exact cncArena_cacheOnly rest a i
    | some nm =>
      dsimp only
      by_cases hc : ((a i).cache.lookup nm).isSome
      · rw [if_pos hc]; exact cacheOnly_refl a
      · rw [if_neg hc]
        exact cacheOnly_trans
          (updNode_cacheOnly a i
            (fun nd => { nd with cache := nd.cache ++ [(nm, j)] })
            (fun _ => ⟨rfl, rfl, rfl, rfl, rfl⟩))
          (cncArena_cacheOnly rest
            (updNode a i (fun nd => { nd with cache := nd.cache ++ [(nm, j)] })) i)

theorem acnc_cacheOnly (a : Arena) (i fuel : Nat) :
    cacheOnly a (arena_create_node_cache a i fuel).2 := by
  unfold arena_create_node_cache
  by_cases h : (a i).cache.isEmpty
  · rw [if_pos h]; exact cncArena_cacheOnly _ a i
  · rw [if_neg h]; exact cacheOnly_refl a

theorem find_cacheOnly (a : Arena) (i : Nat) (nm : List Char) (fuel : Nat) :
    cacheOnly a (arena_find a i nm fuel).2 := by
  have h1 := acnc_cacheOnly a i fuel
  unfold arena_find
  rcases hc : arena_create_node_cache a i fuel with ⟨res, a1⟩
  rw [hc] at h1
  cases res with
  | some e => exact h1
  | none =>
    dsimp only
    cases hl : (a1 i).cache.lookup nm with
    | none => exact h1
    | some j => exact h1

theorem findAll_nil (a : Arena) (i fuel : Nat) :
    findAll a i fuel [] = (.ok [], a) := rfl

theorem findAll_cons (a : Arena) (i fuel : Nat) (nm : List Char)
    (rest : List (List Char)) :
    findAll a i fuel (nm :: rest) =
      match arena_find a i nm fuel with
      | (.error e, a1) => (.error e, a1)
      | (.ok t, a1) =>
        match findAll a1 i fuel rest with
        | (.error e, a2) => (.error e, a2)
        | (.ok ts, a2) => (.ok (t :: ts), a2) := rfl

theorem findAll_cacheOnly : ∀ (nms : List (List Char)) (a : Arena) (i fuel : Nat),
    cacheOnly a (findAll a i fuel nms).2
  | [], a, _, _ => cacheOnly_refl a
  | nm :: rest, a, i, fuel => by
    rw [findAll_cons]
    have h1 := find_cacheOnly a i nm fuel
    rcases hf : arena_find a i nm fuel with ⟨res, a1⟩
    rw [hf] at h1
    cases res with
    | error e => exact h1
    | ok t =>
      dsimp only
      have h2 := findAll_cacheOnly rest a1 i fuel
      rcases hr : findAll a1 i fuel rest with ⟨res2, a2⟩
      rw [hr] at h2
      cases res2 with
      | error e => exact cacheOnly_trans h1 h2
      | ok ts => exact cacheOnly_trans h1 h2

theorem walkUp_none (fuel : Nat) (a : Arena) (prev : Nat) (scrub : List Nat) :
    walkUp fuel a prev none scrub = (a, scrub) := by
  cases fuel <;> rfl

theorem walkUp_succ (fuel : Nat) (a : Arena) (prev c : Nat) (scrub : List Nat) :
    walkUp (fuel + 1) a prev (some c) scrub =
      match (a c).black with
      | none =>
        walkUp fuel (updNode a c (fun nd => { nd with black := some [prev] })) c
          ((a c).parent) (scrub ++ [c])
      | some l =>
        (updNode a c (fun nd => { nd with black := some (l ++ [prev]) }), scrub) := rfl

theorem walkUp_structSame : ∀ (fuel : Nat) (a : Arena) (prev : Nat)
    (curr : Option Nat) (scrub : List Nat),
    structSame a (walkUp fuel a prev curr scrub).1
  | fuel, a, _, none, scrub => by rw [walkUp_none]; exact structSame_refl a
  | 0, a, _, some _, _ => structSame_refl a
  | fuel + 1, a, prev, some c, scrub => by
    rw [walkUp_succ]
    cases hb : (a c).black with
    | none =>
      dsimp only
      exact structSame_trans
        (updNode_structSame a c (fun nd => { nd with black := some [prev] })
          (fun _ => ⟨rfl, rfl, rfl, rfl⟩))
        (walkUp_structSame fuel
          (updNode a c (fun nd => { nd with black := some [prev] })) c
          ((a c).parent) (scrub ++ [c]))
    | some l =>
      exact updNode_structSame a c (fun nd => { nd with black := some (l ++ [prev]) })
        (fun _ => ⟨rfl, rfl, rfl, rfl⟩)

theorem markAll_structSame (fuel : Nat) : ∀ (ts : List Nat) (a : Arena)
    (scrub : List Nat), structSame a (markAll fuel a ts scrub).1
  | [], a, _ => structSame_refl a
  | t :: ts, a, scrub => by
    show structSame a
      (markAll fuel (walkUp fuel a t ((a t).parent) scrub).1 ts
        (walkUp fuel a t ((a t).parent) scrub).2).1
    exact structSame_trans (walkUp_structSame fuel a t ((a t).parent) scrub)
      (markAll_structSame fuel ts _ _)

theorem scrubAll_nil (a : Arena) : scrubAll a [] = a := rfl

theorem scrubAll_cons (a : Arena) (n1 : Nat) (rest : List Nat) :
    scrubAll a (n1 :: rest) =
      scrubAll (updNode a n1 (fun nd => { nd with black := none })) rest := rfl

theorem scrubAll_structSame : ∀ (l : List Nat) (a : Arena),
    structSame a (scrubAll a l)
  | [], a => structSame_refl a
  | n1 :: rest, a => by
    rw [scrubAll_cons]
    exact structSame_trans
      (updNode_structSame a n1 (fun nd => { nd with black := none })
        (fun _ => ⟨rfl, rfl, rfl, rfl⟩))
      (scrubAll_structSame rest _)

/-- Every node carrying a transient `black` mark has been recorded for
scrubbing: the invariant of the marking phase. -/
def blackInv (a : Arena) (scrub : List Nat) : Prop :=
  ∀ x, (a x).black ≠ none → x ∈ scrub

theorem walkUp_blackInv : ∀ (fuel : Nat) (a : Arena) (prev : Nat)
    (curr : Option Nat) (scrub : List Nat), blackInv a scrub →
    blackInv (walkUp fuel a prev curr scrub).1 (walkUp fuel a prev curr scrub).2
  | fuel, a, _, none, scrub, h => by rw [walkUp_none]; exact h
  | 0, _, _, some _, _, h => h
  | fuel + 1, a, prev, some c, scrub, h => by
    rw [walkUp_succ]
    cases hb : (a c).black with
    | none =>
      dsimp only
      refine walkUp_blackInv fuel _ c ((a c).parent) (scrub ++ [c]) ?_
      intro x hx
      unfold updNode at hx
      by_cases hxc : x = c
      · exact List.mem_append_right scrub (hxc ▸ List.mem_singleton_self c)
      · rw [if_neg hxc] at hx
        exact List.mem_append_left [c] (h x hx)
    | some l =>
      dsimp only
      intro x hx
      unfold updNode at hx
      by_cases hxc : x = c
      · subst hxc
        exact h x (by rw [hb]; exact Option.some_ne_none l)
      · rw [if_neg hxc] at hx
        exact h x hx

theorem markAll_blackInv (fuel : Nat) : ∀ (ts : List Nat) (a : Arena)
    (scrub : List Nat), blackInv a scrub →
    blackInv (markAll fuel a ts scrub).1 (markAll fuel a ts scrub).2
  | [], _, _, h => h
  | t :: ts, a, scrub, h => by
    show blackInv
      (markAll fuel (walkUp fuel a t ((a t).parent) scrub).1 ts
        (walkUp fuel a t ((a t).parent) scrub).2).1
      (markAll fuel (walkUp fuel a t ((a t).parent) scrub).1 ts
        (walkUp fuel a t ((a t).parent) scrub).2).2
    exact markAll_blackInv fuel ts _ _
      (walkUp_blackInv fuel a t ((a t).parent) scrub h)

theorem scrubAll_not_mem : ∀ (l : List Nat) (a : Arena) (x : Nat), x ∉ l →
    ((scrubAll a l) x).black = (a x).black
  | [], _, _, _ => rfl
  | n1 :: rest, a, x, hx => by
    rw [scrubAll_cons]
    have hx1 : x ≠ n1 := fun h => hx (h ▸ List.mem_cons_self n1 rest)
    have hx2 : x ∉ rest := fun h => hx (List.mem_cons_of_mem n1 h)
    rw [scrubAll_not_mem rest _ x hx2]
    unfold updNode
    rw [if_neg hx1]

theorem scrubAll_mem : ∀ (l : List Nat) (a : Arena) (x : Nat), x ∈ l →
    ((scrubAll a l) x).black = none
  | [], _, x, hx => absurd hx (List.not_mem_nil x)
  | n1 :: rest, a, x, hx => by
    rw [scrubAll_cons]
    by_cases hr : x ∈ rest
    · exact scrubAll_mem rest _ x hr
    · have hx1 : x = n1 := by
        rcases List.mem_cons.mp hx with h | h
        · exact h
        · exact absurd h hr
      rw [scrubAll_not_mem rest _ x hr]
      unfold updNode
      rw [if_pos hx1]

/-- C9 (amended): `lowest_common_ancestor` leaves every node's structural
fields (name, length, parent, children) exactly as they were; and when it
returns normally from a mark-free starting state, every transient `black`
mark has been scrubbed, so the tree carries no `black` attribute afterwards.
(When it raises, the marks set before the failure are NOT scrubbed — see the
counterexample.) -/
theorem claim9_thm (a : Arena) (i fuel : Nat) (tipnames : List (List Char))
    (hb : ∀ x, (a x).black = none) :
    structSame a (lowest_common_ancestor a i tipnames fuel).2 ∧
    (∀ r : Option Nat,
      (lowest_common_ancestor a i tipnames fuel).1 = Except.ok r →
      ∀ x, ((lowest_common_ancestor a i tipnames fuel).2 x).black = none) := by
  unfold lowest_common_ancestor
  by_cases h1 : tipnames.length = 1
  · rw [if_pos h1]
    have hco := find_cacheOnly a i (tipnames.getD 0 []) fuel
    rcases hf : arena_find a i (tipnames.getD 0 []) fuel with ⟨res, a1⟩
    rw [hf] at hco
    cases res with
    | ok t =>
      refine ⟨cacheOnly_structSame hco, fun r _ x => ?_⟩
      rw [(hco x).2.2.2.2, hb x]
    | error e =>
      refine ⟨cacheOnly_structSame hco, fun r _ x => ?_⟩
      rw [(hco x).2.2.2.2, hb x]
  · rw [if_neg h1]
    have hco := findAll_cacheOnly tipnames a i fuel
    rcases hfa : findAll a i fuel tipnames with ⟨res, a1⟩
    rw [hfa] at hco
    cases res with
    | error e =>
      refine ⟨cacheOnly_structSame hco, fun r _ x => ?_⟩
      rw [(hco x).2.2.2.2, hb x]
    | ok tips =>
      dsimp only
      have hb1 : ∀ x, (a1 x).black = none := fun x => by
        rw [(hco x).2.2.2.2, hb x]
      by_cases htz : tips.length = 0
      · rw [if_pos htz]
        exact ⟨cacheOnly_structSame hco, fun r _ x => hb1 x⟩
      · rw [if_neg htz]
        have hm1 := markAll_structSame fuel tips a1 []
        have hmi := markAll_blackInv fuel tips a1 []
          (fun x hx => absurd (hb1 x) hx)
        rcases hm : markAll fuel a1 tips [] with ⟨a2, scrub⟩
        rw [hm] at hm1 hmi
        cases hd : lcaDescend fuel a2 i with
        | error e =>
          refine ⟨structSame_trans (cacheOnly_structSame hco) hm1, ?_⟩
          intro r hr
          exact absurd hr (fun hr => Except.noConfusion hr)
        | ok c =>
          refine ⟨structSame_trans (cacheOnly_structSame hco)
            (structSame_trans hm1 (scrubAll_structSame scrub a2)), ?_⟩
          intro r _ x
          by_cases hxs : x ∈ scrub
          · exact scrubAll_mem scrub a2 x hxs
          · rw [scrubAll_not_mem scrub a2 x hxs]
            by_cases hxb : (a2 x).black = none
            · exact hxb
            · exact absurd (hmi x hxb) hxs

/-- A tree for the LCA counterexample: root `R` (id 0) with tip children
`A` (id 1) and `B` (id 2); no transient marks anywhere. -/
def cex9Arena : Arena := fun j =>
  if j = 0 then { name := some ['R'], children := [1, 2] }
  else if j = 1 then { name := some ['A'], parent := some 0 }
  else if j = 2 then { name := some ['B'], parent := some 0 }
  else {}

/-- C9 fails: calling `lowest_common_ancestor(['A', 'A'])` on the tip `A`
itself (a list of two valid tip identifiers) marks the root, then the
descent reads `self.black` which was never set, raising `AttributeError`
— and because the scrub loop sits after the descent, the root keeps its
transient `black = [1, 1]` mark after the call. -/
theorem claim9_cex :
    (cex9Arena 0).black = none ∧
    (lowest_common_ancestor cex9Arena 1 [['A'], ['A']] 10).1
      = Except.error TreeErr.attrMissing ∧
    ((lowest_common_ancestor cex9Arena 1 [['A'], ['A']] 10).2 0).black
      = some [1, 1] := ⟨rfl, rfl, rfl⟩

/-- A successful LCA call on the same tree from the root, with the
no-marks hypothesis discharged concretely: the call returns the root and
leaves no `black` mark on the root. -/
theorem claim9_witness :
    (lowest_common_ancestor cex9Arena 0 [['A'], ['B']] 10).1
      = Except.ok (some 0) ∧
    ((lowest_common_ancestor cex9Arena 0 [['A'], ['B']] 10).2 0).black
      = none := by
  have hb : ∀ x, (cex9Arena x).black = none := by
    intro x
    unfold cex9Arena
    repeat' split
    all_goals rfl
  have hok : (lowest_common_ancestor cex9Arena 0 [['A'], ['B']] 10).1
      = Except.ok (some 0) := rfl
  exact ⟨hok, (claim9_thm cex9Arena 0 10 [['A'], ['B']] hb).2 (some 0) hok 0⟩
